import Mathlib

/-!
Verification of the Auto-Context pipeline of the cc-agent-manager
extension: a shallow embedding of the pure core of
`ClaudeCodeService` and `AutoContextService`, together with theorems
settling the frozen claims about it.

Strings are represented by their character lists; every embedded
function is computable so that witnesses can be checked by `decide`.
JavaScript string primitives (split on a separator, trim, substring,
indexOf, regular-expression fragments) are modelled character by
character on `List Char`.
-/

namespace CCAM

/-- Characters matched by the JavaScript whitespace class used by
`trim` and by the regex class backslash-s (the common members; the
exotic Unicode spaces do not occur in the inputs treated here). -/
def jsSpace (c : Char) : Bool :=
  c = ' ' || c = '\t' || c = '\n' || c = '\r' ||
  Char.ofNat 11 = c || Char.ofNat 12 = c || Char.ofNat 160 = c || Char.ofNat 65279 = c

/-- The apostrophe character, written by code point. -/
def aposChar : Char := Char.ofNat 39

/-- The backtick character, written by code point. -/
def backtickChar : Char := Char.ofNat 96

/-- The dollar character. -/
def dollarChar : Char := '$'

/-- JavaScript `String.prototype.trim` on a character list. -/
def jsTrimL (l : List Char) : List Char :=
  ((l.dropWhile jsSpace).reverse.dropWhile jsSpace).reverse

/-- JavaScript `String.prototype.trimEnd` on a character list. -/
def jsTrimEndL (l : List Char) : List Char :=
  (l.reverse.dropWhile jsSpace).reverse

/-- Split a character list at every newline, as JavaScript
`split("\n")` does: the result is never empty and the separators are
consumed. -/
def splitLinesL : List Char → List (List Char)
  | [] => [[]]
  | c :: t =>
    if c = '\n' then [] :: splitLinesL t
    else
      match splitLinesL t with
      | [] => [[c]]
      | h :: r => (c :: h) :: r

/-- Join lines with newline separators (inverse of `splitLinesL` on
newline-free lines). -/
def joinLinesL : List (List Char) → List Char
  | [] => []
  | l :: r =>
    match r with
    | [] => l
    | _ :: _ => l ++ '\n' :: joinLinesL r

/-- Does `pat` occur as a contiguous sublist of `l`? (JavaScript
`includes` / a successful `indexOf`.) -/
def containsSeq (pat : List Char) : List Char → Bool
  | [] => pat.isEmpty
  | c :: t => pat.isPrefixOf (c :: t) || containsSeq pat t

/-- Index of the first occurrence of `pat` in `l`, if any
(JavaScript `indexOf`). -/
def idxOfSeq (pat : List Char) : List Char → Option Nat
  | [] => if pat.isEmpty then some 0 else none
  | c :: t =>
    if pat.isPrefixOf (c :: t) then some 0
    else (idxOfSeq pat t).map (· + 1)

/-! ## Frontmatter normalizer (`AutoContextService.fixFrontmatterFormat`)

The source matches the header block with the regex
`^---\n([\s\S]*?)\n---`: the text must begin with three hyphens and a
newline, and the non-greedy group ends at the first later occurrence
of a newline followed by three hyphens. -/

/-- Scan for the first occurrence of newline-hyphen-hyphen-hyphen,
returning the characters before it and the characters after it.
This is the non-greedy close of the header-block regex. -/
def findClose : List Char → Option (List Char × List Char)
  | [] => none
  | c :: t =>
    if c = '\n' && t.take 3 = ['-', '-', '-'] then some ([], t.drop 3)
    else (findClose t).map (fun p => (c :: p.1, p.2))

/-- Match the header-block regex `^---\n([\s\S]*?)\n---` at the start
of the text: on success, returns the group (the block body) and the
characters after the whole match. -/
def parseFM (cs : List Char) : Option (List Char × List Char) :=
  if cs.take 4 = ['-', '-', '-', '\n'] then findClose (cs.drop 4) else none

/-- Field characters of the quoted-scalar regex class `[a-zA-Z_-]`. -/
def isFieldChar (c : Char) : Bool :=
  ('a' ≤ c && c ≤ 'z') || ('A' ≤ c && c ≤ 'Z') || c = '_' || c = '-'

/-- Quote characters of the regex class holding the double quote and
the apostrophe. -/
def isQuoteChar (c : Char) : Bool :=
  c = '"' || c = aposChar

/-- Does the line match `^\s*KEY:\s*` for the given key, i.e. does the
line after leading whitespace start with the key and a colon? -/
def keyFlagLine (key : List Char) (l : List Char) : Bool :=
  (key ++ [':']).isPrefixOf (l.dropWhile jsSpace)

/-- Lines dropped by the normalizer: tool-permission keys. -/
def isDroppedLine (l : List Char) : Bool :=
  keyFlagLine ['t', 'o', 'o', 'l', 's'] l ||
  keyFlagLine ['a', 'l', 'l', 'o', 'w', 'e', 'd', '-', 't', 'o', 'o', 'l', 's'] l

/-- Match the quoted-scalar regex
`^(\s*)([a-zA-Z_-]+):\s*["\x27]([^"\x27]+)["\x27]\s*$` against a line,
returning indent, field and value on success. -/
def parseQuoted (l : List Char) : Option (List Char × List Char × List Char) :=
  let indent := l.takeWhile jsSpace
  let r1 := l.dropWhile jsSpace
  let field := r1.takeWhile isFieldChar
  let r2 := r1.drop field.length
  if field.isEmpty then none
  else
    match r2 with
    | ':' :: r3 =>
      match r3.dropWhile jsSpace with
      | q :: r5 =>
        if isQuoteChar q then
          let v := r5.takeWhile (fun c => !(isQuoteChar c))
          match r5.drop v.length with
          | _ :: r7 =>
            if v.isEmpty then none
            else if r7.all jsSpace then some (indent, field, v) else none
          | [] => none
        else none
      | [] => none
    | _ => none

/-- The YAML-significant characters that force a scalar to stay
quoted: colon, hash, brackets, braces, pipe, greater-than, ampersand,
asterisk, bang, question mark, comma. -/
def isYamlSpecial (c : Char) : Bool :=
  c = ':' || c = '#' || c = '[' || c = ']' || Char.ofNat 123 = c || Char.ofNat 125 = c ||
  c = '|' || c = '>' || c = '&' || c = '*' || c = '!' || c = '?' || c = ','

/-- Does a quoted value need to keep its quotes? True when it holds a
YAML-significant character, starts with an at sign, a backtick or a
quote, or has leading or trailing whitespace. -/
def needsQuotes (v : List Char) : Bool :=
  v.any isYamlSpecial ||
  (match v with
   | c :: _ => c = '@' || c = backtickChar || c = aposChar || c = '"'
   | [] => false) ||
  decide (jsTrimL v ≠ v)

/-- Per-line normalization: strip the quotes of a `key: "value"` line
whose value does not need them; leave every other line unchanged. -/
def fixLine (l : List Char) : List Char :=
  match parseQuoted l with
  | some (indent, field, v) =>
    if needsQuotes v then l else indent ++ field ++ ':' :: ' ' :: v
  | none => l

/-- Process the lines of a header block: drop tool-permission lines,
strip removable quotes, and add any of name, description, model that
is missing (name first, the others appended). -/
def processBlock (inner : List Char) (agentName : List Char) : List (List Char) :=
  let lines := splitLinesL inner
  let kept := lines.filter (fun l => !(isDroppedLine l))
  let fixed := kept.map fixLine
  (if kept.any (keyFlagLine ['n', 'a', 'm', 'e']) then [] else
    [['n', 'a', 'm', 'e', ':', ' '] ++ agentName]) ++
  fixed ++
  (if kept.any (keyFlagLine "description".data) then [] else
    ["description: Agent for ".data ++ agentName]) ++
  (if kept.any (keyFlagLine "model".data) then [] else ["model: sonnet".data])

/-- GetSubstitution of the JavaScript string `replace`: in the
replacement template, a doubled dollar is a literal dollar, dollar
ampersand inserts the matched text, dollar backtick the text before
the match, dollar apostrophe the text after it; any other dollar is
literal. The pattern in the source has no capture groups. -/
def dollarSub (m pre suf : List Char) : List Char → List Char
  | [] => []
  | c :: t =>
    if c = dollarChar then
      match t with
      | d :: t2 =>
        if d = dollarChar then dollarChar :: dollarSub m pre suf t2
        else if d = '&' then m ++ dollarSub m pre suf t2
        else if d = backtickChar then pre ++ dollarSub m pre suf t2
        else if d = aposChar then suf ++ dollarSub m pre suf t2
        else dollarChar :: dollarSub m pre suf (d :: t2)
      | [] => [dollarChar]
    else c :: dollarSub m pre suf t

/-- The four characters of the non-greedy close pattern. -/
def closePat : List Char := ['\n', '-', '-', '-']

/-- The synthesized name line of the normalizer. -/
def nameLine (n : List Char) : List Char := ['n', 'a', 'm', 'e', ':', ' '] ++ n

/-- The synthesized description line of the normalizer. -/
def descLine (n : List Char) : List Char := "description: Agent for ".data ++ n

/-- The synthesized model line of the normalizer. -/
def modelLine : List Char := "model: sonnet".data

/-- The header block synthesized when the text has none. -/
def synthFM (agentName : List Char) : List Char :=
  "---\nname: ".data ++ agentName ++ "\ndescription: Agent for ".data ++ agentName ++
  "\nmodel: sonnet\n---\n\n".data

/-- `AutoContextService.fixFrontmatterFormat` on character lists: if
no header block matches, synthesize one and prepend it; otherwise
rebuild the block with `processBlock` and substitute it for the
original match (the replacement string goes through the dollar
substitution of JavaScript `replace`). -/
def fixFrontmatterFormatL (content : List Char) (agentName : List Char) : List Char :=
  match parseFM content with
  | none => synthFM agentName ++ content
  | some (inner, rest) =>
    let ff := joinLinesL (processBlock inner agentName)
    let matched := "---\n".data ++ inner ++ "\n---".data
    dollarSub matched [] rest ("---\n".data ++ ff ++ "\n---".data) ++ rest

/-- `AutoContextService.fixFrontmatterFormat` on strings. -/
def fixFrontmatterFormat (content agentName : String) : String :=
  ⟨fixFrontmatterFormatL content.data agentName.data⟩

example :
    fixFrontmatterFormat "hello" "reviewer" =
      "---\nname: reviewer\ndescription: Agent for reviewer\nmodel: sonnet\n---\n\nhello" := by
  decide

example :
    fixFrontmatterFormat "---\nname: \"x\"\ntools: a, b\n---\nbody" "ag" =
      "---\nname: x\ndescription: Agent for ag\nmodel: sonnet\n---\nbody" := by
  decide

/-! ## Markdown parsing (`AutoContextService.parseMarkdown`)

The title comes from the first match of the multiline regex
`^#\s+(.+)$`; because the whitespace class matches newlines, the gap
between the hash and the captured text may span line breaks. The
description comes from a line scan that skips blanks, hash lines and
every region delimited by lines that trim to three hyphens. -/

/-- Try the title regex at one line-start position. After the hash,
the whitespace run is taken greedily; the capture is the rest of that
line. When the whitespace run reaches the end of the text the engine
backtracks, handing the last non-newline whitespace character of the
run to the capture. -/
def tryTitleAt : List Char → Option (List Char)
  | '#' :: rest =>
    let run := rest.takeWhile jsSpace
    if run.isEmpty then none
    else
      match rest.drop run.length with
      | c :: after => some ((c :: after).takeWhile (fun x => x ≠ '\n'))
      | [] =>
        match (run.reverse.findIdx? (fun x => x ≠ '\n')) with
        | some j =>
          let i := run.length - 1 - j
          if 1 ≤ i then some ((run.drop i).takeWhile (fun x => x ≠ '\n')) else none
        | none => none
  | _ => none

/-- Try the anchored title regex at every line start after the first
character, in order. -/
def titleScanTail : List Char → Option (List Char)
  | [] => none
  | c :: t =>
    if c = '\n' then
      match tryTitleAt t with
      | some r => some r
      | none => titleScanTail t
    else titleScanTail t

/-- First match of the multiline title regex over the whole text. -/
def jsTitleMatch (cs : List Char) : Option (List Char) :=
  match tryTitleAt cs with
  | some t => some t
  | none => titleScanTail cs

/-- The description scan of `parseMarkdown`. The flag records being
inside a hyphen-delimited region: there the inner while loop of the
source consumes lines until one trims to three hyphens. Outside, the
scan skips blank lines and hash lines, enters a region at a line that
trims to three hyphens, and otherwise yields the trimmed line
truncated to 200 characters. -/
def descScan : Bool → List (List Char) → Option (List Char)
  | _, [] => none
  | true, l :: rest =>
    if jsTrimL l = ['-', '-', '-'] then descScan false rest else descScan true rest
  | false, l :: rest =>
    let t := jsTrimL l
    if t.isEmpty then descScan false rest
    else if t.head? = some '#' then descScan false rest
    else if t = ['-', '-', '-'] then descScan true rest
    else some (t.take 200)

/-- The description scan started outside any region. -/
def descLoop (ls : List (List Char)) : Option (List Char) :=
  descScan false ls

/-- `AutoContextService.parseMarkdown` on character lists: extracted
title and description. -/
def parseMarkdownL (cs : List Char) : Option (List Char) × Option (List Char) :=
  ((jsTitleMatch cs).map jsTrimL, descLoop (splitLinesL cs))

/-- `AutoContextService.parseMarkdown` on strings. -/
def parseMarkdown (content : String) : Option String × Option String :=
  ((parseMarkdownL content.data).1.map String.mk, (parseMarkdownL content.data).2.map String.mk)

example :
    parseMarkdown "---\nfoo: bar\n---\n\n# Title\n\nHello world." =
      (some "Title", some "Hello world.") := by
  decide

/-! ## Markdown scanner (`AutoContextService.findMarkdownFiles`) -/

/-- A scanned markdown file: name, path segments below the scan root
(directories then file name), raw content, extracted title and
description. -/
structure MarkdownFile where
  name : String
  pathSegs : List String
  content : String
  title : Option String
  description : Option String
deriving DecidableEq

/-! A file-system tree given to the walkers, as a mutual pair so that
every recursion over it is structural. -/
mutual
inductive FsEntry where
  | file (name : String) (content : String)
  | dir (name : String) (entries : FsEntries)
inductive FsEntries where
  | nil
  | cons (e : FsEntry) (rest : FsEntries)
end

/-- Build an `FsEntries` listing from a plain list. -/
def fsList (l : List FsEntry) : FsEntries :=
  l.foldr FsEntries.cons FsEntries.nil

/-- JavaScript `endsWith` on strings, checked on character lists so
that it evaluates inside the kernel. -/
def strEndsWith (s pat : String) : Bool :=
  pat.data.isSuffixOf s.data

/-- JavaScript `startsWith` on strings, checked on character lists. -/
def strStartsWith (s pat : String) : Bool :=
  pat.data.isPrefixOf s.data

/-- Directory names skipped by the markdown scan. -/
def mdSkipDirs : List String := ["node_modules", ".git", "dist", "out", "build", ".claude"]

/-! `AutoContextService.findMarkdownFiles`: walk the tree collecting
markdown files. The source guards each call with a depth check
(`depth > 5` returns immediately), skips the listed directories and
every directory starting with a dot, and parses each `.md` file. A
per-file read error only skips that file; content is part of the tree
here, so reads always succeed. -/
mutual
def findMdEntry : FsEntry → List String → Nat → List MarkdownFile
  | FsEntry.file n c, segs, _ =>
    if strEndsWith n ".md" then
      [⟨n, segs ++ [n], c, (parseMarkdown c).1, (parseMarkdown c).2⟩]
    else []
  | FsEntry.dir n ch, segs, d =>
    if n ∈ mdSkipDirs ∨ strStartsWith n "." then []
    else if d + 1 > 5 then [] else findMdEntries ch (segs ++ [n]) (d + 1)
def findMdEntries : FsEntries → List String → Nat → List MarkdownFile
  | FsEntries.nil, _, _ => []
  | FsEntries.cons e rest, segs, d =>
    findMdEntry e segs d ++ findMdEntries rest segs d
end

/-- `AutoContextService.scanMarkdownFiles`: the scan starts at the
workspace root with depth 0 (the entry depth guard is vacuous
there). -/
def scanMarkdownFiles (root : FsEntries) : List MarkdownFile :=
  findMdEntries root [] 0

example :
    scanMarkdownFiles
      (fsList
        [FsEntry.dir "docs" (fsList [FsEntry.file "a.md" "# A\n\nAlpha."]),
         FsEntry.dir "node_modules" (fsList [FsEntry.file "x.md" "nope"]),
         FsEntry.file "README.md" "# R\n\nRoot."]) =
      [⟨"a.md", ["docs", "a.md"], "# A\n\nAlpha.", some "A", some "Alpha."⟩,
       ⟨"README.md", ["README.md"], "# R\n\nRoot.", some "R", some "Root."⟩] := by
  decide

/-! ## Project context digest (`ClaudeCodeService.getProjectContext`)

The digest appends labeled sections for CLAUDE.md, README.md, a
curated package.json summary, pyproject.toml and a two-level
directory tree, tracking a running character total against the 8000
budget. Which files the builder reads is recorded alongside, so that
the side-channel query `getReadableFiles` can be compared with it. -/

/-- JavaScript `substring(0, n)` (the truncation used throughout). -/
def strTake (s : String) (n : Nat) : String :=
  ⟨s.data.take n⟩

/-- Join strings with a separator, on character lists. -/
def strJoin (sep : String) : List String → String
  | [] => ""
  | x :: r =>
    match r with
    | [] => x
    | _ :: _ => x ++ sep ++ strJoin sep r

/-- The parsed fields of package.json that the digest keeps: name,
description, the scripts map, and the key lists of the dependency
maps. An absent field is omitted by the serialization, as
`JSON.stringify` omits undefined values. -/
structure PackageJson where
  name : Option String
  description : Option String
  scripts : Option (List (String × String))
  dependencies : Option (List String)
  devDependencies : Option (List String)
deriving DecidableEq

/-- JSON string escaping for the characters that occur in the inputs
treated here (quote, backslash and the common control characters). -/
def jsonEscapeChar (c : Char) : List Char :=
  if c = '"' then ['\\', '"']
  else if c = '\\' then ['\\', '\\']
  else if c = '\n' then ['\\', 'n']
  else if c = '\t' then ['\\', 't']
  else if c = '\r' then ['\\', 'r']
  else if Char.ofNat 8 = c then ['\\', 'b']
  else if Char.ofNat 12 = c then ['\\', 'f']
  else [c]

/-- A JSON string literal. -/
def jsonStr (s : String) : String :=
  ⟨'"' :: (s.data.map jsonEscapeChar).flatten ++ ['"']⟩

/-- A string array as `JSON.stringify` lays it out at nesting depth
one with a two-space indent. -/
def pkgArr (items : List String) : String :=
  if items.isEmpty then "[]"
  else "[\n" ++ strJoin ",\n" (items.map (fun i => "    " ++ jsonStr i)) ++ "\n  ]"

/-- A string-to-string object as `JSON.stringify` lays it out at
nesting depth one with a two-space indent. -/
def pkgObj (pairs : List (String × String)) : String :=
  if pairs.isEmpty then "\x7b\x7d"
  else
    "\x7b\n" ++
    strJoin ",\n" (pairs.map (fun p => "    " ++ jsonStr p.1 ++ ": " ++ jsonStr p.2)) ++
    "\n  \x7d"

/-- The curated package.json summary:
`JSON.stringify(\x7bname, description, scripts, dependencies,
devDependencies\x7d, null, 2)`, where the dependency fields fall back
to empty key lists and absent name, description or scripts are
omitted. -/
def mkPkgSummary (p : PackageJson) : String :=
  let fields : List String :=
    (match p.name with
     | some n => ["\"name\": " ++ jsonStr n]
     | none => []) ++
    (match p.description with
     | some d => ["\"description\": " ++ jsonStr d]
     | none => []) ++
    (match p.scripts with
     | some sc => ["\"scripts\": " ++ pkgObj sc]
     | none => []) ++
    ["\"dependencies\": " ++ pkgArr (p.dependencies.getD [])] ++
    ["\"devDependencies\": " ++ pkgArr (p.devDependencies.getD [])]
  "\x7b\n" ++ strJoin ",\n" (fields.map (fun f => "  " ++ f)) ++ "\n\x7d"

/-- Directory names skipped by `getDirectoryStructure`. -/
def dirSkipDirs : List String :=
  ["node_modules", ".git", "dist", "out", "build", "__pycache__", "venv", ".venv",
   ".idea", ".vscode"]

/-- The name of a tree entry. -/
def entryName : FsEntry → String
  | FsEntry.file n _ => n
  | FsEntry.dir n _ => n

/-- Two spaces per depth level. -/
def indentStr : Nat → String
  | 0 => ""
  | n + 1 => "  " ++ indentStr n

/-! `ClaudeCodeService.getDirectoryStructure`: lines of the rendered
tree. Dot-entries are skipped only at depth zero; the skip list is
checked at every level; a directory line is followed by its joined
subtree when that subtree is non-empty, and the recursive call
returns nothing once the depth cap is passed. -/
mutual
def dirLinesEntry : FsEntry → Nat → Nat → List String
  | FsEntry.file n _, depth, _ => [indentStr depth ++ n]
  | FsEntry.dir n ch, depth, maxDepth =>
    let sub := if depth + 1 > maxDepth then "" else strJoin "\n" (dirLinesList ch (depth + 1) maxDepth)
    [indentStr depth ++ n ++ "/"] ++ (if sub = "" then [] else [sub])
def dirLinesList : FsEntries → Nat → Nat → List String
  | FsEntries.nil, _, _ => []
  | FsEntries.cons e rest, depth, maxDepth =>
    (if (strStartsWith (entryName e) "." && depth = 0) || entryName e ∈ dirSkipDirs then []
     else dirLinesEntry e depth maxDepth) ++
    dirLinesList rest depth maxDepth
end

/-- The directory-structure string of the digest: the walk starts at
depth 0 with a depth cap of 2 (the entry guard is vacuous there). -/
def dirStructureTop (es : FsEntries) : String :=
  strJoin "\n" (dirLinesList es 0 2)

/-- A workspace state: the optional contents of the priority files
(package.json further split into present-but-unparseable and parsed),
the existence of requirements.txt, and the directory tree. -/
structure Workspace where
  claudeMd : Option String
  readmeMd : Option String
  packageJson : Option (Option PackageJson)
  pyprojectToml : Option String
  requirementsTxt : Bool
  tree : FsEntries

/-- Running state of the digest builder: emitted sections, the
character total the source tracks, and the files read so far. -/
structure DigestSt where
  parts : List String
  total : Nat
  reads : List String
deriving DecidableEq

/-- Initial digest state. -/
def digestInit : DigestSt := ⟨[], 0, []⟩

/-- Priority 1: CLAUDE.md, truncated to 2000 characters; the section
header is not counted against the budget. -/
def stClaude (ws : Workspace) (st : DigestSt) : DigestSt :=
  match ws.claudeMd with
  | some content =>
    if st.total < 8000 then
      let trimmed := strTake content 2000
      ⟨st.parts ++ ["## CLAUDE.md\n" ++ trimmed], st.total + trimmed.data.length,
       st.reads ++ ["CLAUDE.md"]⟩
    else st
  | none => st

/-- Priority 2: README.md, truncated to the smaller of 2000 and the
remaining budget. -/
def stReadme (ws : Workspace) (st : DigestSt) : DigestSt :=
  match ws.readmeMd with
  | some content =>
    if st.total < 8000 then
      let remaining := min 2000 (8000 - st.total)
      let trimmed := strTake content remaining
      ⟨st.parts ++ ["## README.md\n" ++ trimmed], st.total + trimmed.data.length,
       st.reads ++ ["README.md"]⟩
    else st
  | none => st

/-- Priority 3: the curated package.json summary. The file is read
before parsing; a parse failure skips the section. The summary is
counted against the budget but never truncated. -/
def stPackage (ws : Workspace) (st : DigestSt) : DigestSt :=
  match ws.packageJson with
  | some parseResult =>
    if st.total < 8000 then
      match parseResult with
      | some p =>
        let s := mkPkgSummary p
        ⟨st.parts ++ ["## package.json\n" ++ s], st.total + s.data.length,
         st.reads ++ ["package.json"]⟩
      | none => { st with reads := st.reads ++ ["package.json"] }
    else st
  | none => st

/-- Priority 4: pyproject.toml, truncated to the smaller of 1000 and
the remaining budget. -/
def stPyproject (ws : Workspace) (st : DigestSt) : DigestSt :=
  match ws.pyprojectToml with
  | some content =>
    if st.total < 8000 then
      let remaining := min 1000 (8000 - st.total)
      let trimmed := strTake content remaining
      ⟨st.parts ++ ["## pyproject.toml\n" ++ trimmed], st.total + trimmed.data.length,
       st.reads ++ ["pyproject.toml"]⟩
    else st
  | none => st

/-- Priority 5: the two-level directory tree, truncated to the
smaller of 1000 and the remaining budget; the total is not updated. -/
def stStructure (ws : Workspace) (st : DigestSt) : DigestSt :=
  if st.total < 8000 then
    let tree := dirStructureTop ws.tree
    let remaining := min 1000 (8000 - st.total)
    ⟨st.parts ++ ["## Structure\n" ++ strTake tree remaining], st.total, st.reads⟩
  else st

/-- The digest state after all five priority steps. -/
def digestState (ws : Workspace) : DigestSt :=
  stStructure ws (stPyproject ws (stPackage ws (stReadme ws (stClaude ws digestInit))))

/-- `ClaudeCodeService.getProjectContext`: the sections joined by
blank lines. -/
def getProjectContext (ws : Workspace) : String :=
  strJoin "\n\n" (digestState ws).parts

/-- The files `getProjectContext` actually reads while building the
digest. -/
def digestReads (ws : Workspace) : List String :=
  (digestState ws).reads

/-- `ClaudeCodeService.getReadableFiles`: the five candidate names
filtered by existence, in the checked order. -/
def getReadableFiles (ws : Workspace) : List String :=
  (if ws.readmeMd.isSome then ["README.md"] else []) ++
  (if ws.claudeMd.isSome then ["CLAUDE.md"] else []) ++
  (if ws.packageJson.isSome then ["package.json"] else []) ++
  (if ws.pyprojectToml.isSome then ["pyproject.toml"] else []) ++
  (if ws.requirementsTxt then ["requirements.txt"] else [])

example :
    getProjectContext
      ⟨some "guide", none, some (some ⟨some "x", none, none, none, none⟩), none, false,
       fsList [FsEntry.file "a.txt" ""]⟩ =
      "## CLAUDE.md\nguide\n\n## package.json\n\x7b\n  \"name\": \"x\",\n  \"dependencies\": [],\n  \"devDependencies\": []\n\x7d\n\n## Structure\na.txt" := by
  decide

/-- A parsed package.json whose summary is far larger than the digest
budget: an 8000-character description. -/
def overflowPkg : PackageJson :=
  ⟨some "x", some ⟨List.replicate 8000 'a'⟩, none, none, none⟩

/-- A workspace holding only that package.json. -/
def overflowWorkspace : Workspace :=
  ⟨none, none, some (some overflowPkg), none, false, FsEntries.nil⟩

/-- A small workspace with all four digest files present and no
requirements.txt. -/
def c5ws : Workspace :=
  ⟨some "g", some "r", some (some ⟨some "x", none, none, none, none⟩), some "p",
   false, FsEntries.nil⟩

/-! ## External assistant client (`ClaudeCodeService.execute`)

The call wraps an event-driven subprocess in a promise that is only
ever resolved, never rejected. The embedding replays an event trace:
stdout and stderr chunks accumulate, the watchdog timeout resolves
with a failure carrying the partial stdout, a close event resolves
according to the exit code, and a spawn error resolves with an
install hint. Resolution is first-write-wins, as for a JavaScript
promise, and close or error clears the watchdog timer. -/

/-- The structured result of `execute` (`ClaudeResponse`). -/
structure ClaudeResponse where
  success : Bool
  content : String
  error : Option String
deriving DecidableEq

/-- One observable event of the subprocess interaction. The timeout
event stands for the watchdog timer firing. -/
inductive ExecEvent where
  | stdoutData (s : String)
  | stderrData (s : String)
  | closed (code : Option Int)
  | procError (msg : String)
  | timeoutFired
deriving DecidableEq

/-- Promise-side state of one `execute` call. -/
structure ExecSt where
  settled : Option ClaudeResponse
  out : String
  err : String
  timerCleared : Bool
deriving DecidableEq

/-- Resolve the promise: the first write wins, later calls are
ignored. -/
def resolveOnce (st : ExecSt) (r : ClaudeResponse) : ExecSt :=
  if st.settled.isSome then st else { st with settled := some r }

/-- The error text of the timeout branch: it embeds the first 200
characters of the partial stdout. -/
def timeoutError (timeoutMs : Nat) (out : String) : String :=
  "Timeout after " ++ toString (timeoutMs / 1000) ++ "s. Partial output: " ++ strTake out 200

/-- The error text of the spawn-failure branch. -/
def spawnError (msg : String) : String :=
  "Failed to execute Claude Code: " ++ msg ++ ". Make sure " ++ ⟨[aposChar]⟩ ++ "claude" ++
  ⟨[aposChar]⟩ ++ " CLI is installed."

/-- The exit-code rendering of the close branch (`null` for a
signal-terminated process). -/
def codeText : Option Int → String
  | some n => toString n
  | none => "null"

/-- One step of the event-driven `execute` body. -/
def execStep (timeoutMs : Nat) (st : ExecSt) (e : ExecEvent) : ExecSt :=
  match e with
  | ExecEvent.stdoutData s => { st with out := st.out ++ s }
  | ExecEvent.stderrData s => { st with err := st.err ++ s }
  | ExecEvent.timeoutFired =>
    if st.timerCleared then st
    else
      resolveOnce { st with timerCleared := true }
        ⟨false, st.out, some (timeoutError timeoutMs st.out)⟩
  | ExecEvent.closed code =>
    let st2 := { st with timerCleared := true }
    if code = some 0 then resolveOnce st2 ⟨true, ⟨jsTrimL st.out.data⟩, none⟩
    else
      resolveOnce st2
        ⟨false, ⟨jsTrimL st.out.data⟩,
         some (if st.err = "" then "Process exited with code " ++ codeText code else st.err)⟩
  | ExecEvent.procError msg =>
    resolveOnce { st with timerCleared := true } ⟨false, "", some (spawnError msg)⟩

/-- Replay a whole event trace of one `execute` call. -/
def execRun (timeoutMs : Nat) (events : List ExecEvent) : ExecSt :=
  events.foldl (execStep timeoutMs) ⟨none, "", "", false⟩

/-- The settled result after a trace, if the promise has settled. -/
def execSettled (timeoutMs : Nat) (events : List ExecEvent) : Option ClaudeResponse :=
  (execRun timeoutMs events).settled

example :
    execSettled 300000
      [ExecEvent.stdoutData "abc", ExecEvent.timeoutFired, ExecEvent.closed (some 0)] =
      some ⟨false, "abc", some "Timeout after 300s. Partial output: abc"⟩ := by
  decide

/-- Events that neither settle the promise nor touch the timer:
stdout and stderr chunks. -/
def isDataEvent : ExecEvent → Bool
  | ExecEvent.stdoutData _ => true
  | ExecEvent.stderrData _ => true
  | _ => false

/-- The stdout accumulated over a trace. -/
def stdoutOf : List ExecEvent → String
  | [] => ""
  | ExecEvent.stdoutData s :: rest => s ++ stdoutOf rest
  | _ :: rest => stdoutOf rest

/-- The stderr accumulated over a trace. -/
def stderrOf : List ExecEvent → String
  | [] => ""
  | ExecEvent.stderrData s :: rest => s ++ stderrOf rest
  | _ :: rest => stderrOf rest

/-! ## Static context section and the AI agent updater
(`AutoContextService.generateContextSection`,
`AutoContextService.updateAgentWithContextAI`) -/

/-- Lowercasing on character lists. -/
def strToLower (s : String) : String :=
  ⟨s.data.map Char.toLower⟩

/-- JavaScript truthiness of an optional string: undefined and the
empty string are falsy. -/
def truthyOpt : Option String → Bool
  | some s => !(s = "")
  | none => false

/-- The relative path of a scanned file below the workspace root. -/
def relPath (f : MarkdownFile) : String :=
  strJoin "/" f.pathSegs

/-- Drop up to two leading asterisks (the `\*?\*?` of the version
regex; the quantifiers never need to backtrack because an asterisk
belongs to no neighbouring class). -/
def dropTwoStars : List Char → List Char
  | '*' :: '*' :: t => t
  | '*' :: t => t
  | t => t

/-- The version-badge regex `^Version:\s*\*?\*?[\d.]+\*?\*?\s*$` with
the case-insensitive flag. -/
def versionLineB (l : List Char) : Bool :=
  if "version:".data.isPrefixOf (l.map Char.toLower) then
    let r1 := (l.drop 8).dropWhile jsSpace
    let r2 := dropTwoStars r1
    let ds := r2.takeWhile (fun c => c.isDigit || c = '.')
    if ds.isEmpty then false
    else (dropTwoStars (r2.drop ds.length)).all jsSpace
  else false

/-- The badge-image regex `^\[!\[`. -/
def badgeLineB (l : List Char) : Bool :=
  ['[', '!', '['].isPrefixOf l

/-- The empty-blockquote regex `^>\s*$`. -/
def emptyQuoteLineB : List Char → Bool
  | '>' :: t => t.all jsSpace
  | _ => false

/-- Marker of a fenced code block: the trimmed line starts with three
backticks. -/
def fenceLineB (l : List Char) : Bool :=
  [backtickChar, backtickChar, backtickChar].isPrefixOf (jsTrimL l)

/-- The loop of `extractReadmeSummary`: walks the lines with the
frontmatter flag, the code-block flag, the passed-title flag, the
consecutive-empty-line count and the collected summary lines. -/
def readmeSummaryGo : List (List Char) → Bool → Bool → Bool → Nat → List (List Char) →
    List (List Char)
  | [], _, _, _, _, acc => acc
  | l :: rest, inFM, inCode, passedTitle, emptyCount, acc =>
    if jsTrimL l = ['-', '-', '-'] then
      readmeSummaryGo rest (!inFM) inCode passedTitle emptyCount acc
    else if inFM then readmeSummaryGo rest inFM inCode passedTitle emptyCount acc
    else if fenceLineB l then readmeSummaryGo rest inFM (!inCode) passedTitle emptyCount acc
    else if inCode then readmeSummaryGo rest inFM inCode passedTitle emptyCount acc
    else if ['#', ' '].isPrefixOf l && !passedTitle then
      readmeSummaryGo rest inFM inCode true emptyCount acc
    else if ['#'].isPrefixOf l then acc
    else if (jsTrimL l).isEmpty then
      if emptyCount + 1 > 2 && !acc.isEmpty then acc
      else readmeSummaryGo rest inFM inCode passedTitle (emptyCount + 1) acc
    else if versionLineB l then readmeSummaryGo rest inFM inCode passedTitle 0 acc
    else if badgeLineB l then readmeSummaryGo rest inFM inCode passedTitle 0 acc
    else if emptyQuoteLineB l then readmeSummaryGo rest inFM inCode passedTitle 0 acc
    else if acc.length + 1 ≥ 6 then acc ++ [jsTrimL l]
    else readmeSummaryGo rest inFM inCode passedTitle 0 (acc ++ [jsTrimL l])

/-- `AutoContextService.extractReadmeSummary`. -/
def extractReadmeSummary (content : String) : String :=
  ⟨joinLinesL (readmeSummaryGo (splitLinesL content.data) false false false 0 [])⟩

/-- The loop of `extractClaudeContext`: headings, bullet lines and,
below fifteen collected lines, other non-empty lines are kept; fenced
code and lines of three hyphens are skipped; fifteen lines end the
scan. -/
def claudeContextGo : List (List Char) → Bool → Nat → List (List Char) → List (List Char)
  | [], _, _, acc => acc
  | l :: rest, inCode, count, acc =>
    if fenceLineB l then claudeContextGo rest (!inCode) count acc
    else if inCode then claudeContextGo rest inCode count acc
    else if jsTrimL l = ['-', '-', '-'] then claudeContextGo rest inCode count acc
    else if ['#'].isPrefixOf l || ['-'].isPrefixOf (jsTrimL l) || ['*'].isPrefixOf (jsTrimL l) then
      if count + 1 ≥ 15 then acc ++ [l] else claudeContextGo rest inCode (count + 1) (acc ++ [l])
    else if !(jsTrimL l).isEmpty && count < 15 then
      if count + 1 ≥ 15 then acc ++ [l] else claudeContextGo rest inCode (count + 1) (acc ++ [l])
    else claudeContextGo rest inCode count acc

/-- `AutoContextService.extractClaudeContext`. -/
def extractClaudeContext (content : String) : String :=
  ⟨joinLinesL (claudeContextGo (splitLinesL content.data) false 0 [])⟩

/-- Substring membership on strings. -/
def strContains (s pat : String) : Bool :=
  containsSeq pat.data s.data

/-- `AutoContextService.detectTechStack`: the fixed keyword battery
over the lowercased concatenation of all file contents, first match
wins inside each else-if chain. -/
def detectTechStack (files : List MarkdownFile) : List String :=
  let all := strJoin " " (files.map (fun f => strToLower f.content))
  (if strContains all "fastapi" then ["FastAPI"]
   else if strContains all "express" then ["Express"]
   else if strContains all "django" then ["Django"]
   else if strContains all "flask" then ["Flask"]
   else if strContains all "nestjs" then ["NestJS"]
   else []) ++
  (if strContains all "ionic" then ["Ionic"] else []) ++
  (if strContains all "angular" then ["Angular"]
   else if strContains all "react" then ["React"]
   else if strContains all "vue" then ["Vue"]
   else if strContains all "svelte" then ["Svelte"]
   else []) ++
  (if strContains all "sqlite" then ["SQLite"]
   else if strContains all "postgresql" || strContains all "postgres" then ["PostgreSQL"]
   else if strContains all "mongodb" then ["MongoDB"]
   else if strContains all "mysql" then ["MySQL"]
   else []) ++
  (if strContains all "sqlalchemy" then ["SQLAlchemy"]
   else if strContains all "prisma" then ["Prisma"]
   else if strContains all "typeorm" then ["TypeORM"]
   else []) ++
  (if strContains all "jwt" then ["JWT"] else []) ++
  (if strContains all "oauth" then ["OAuth"] else []) ++
  (if strContains all "typescript" then ["TypeScript"] else []) ++
  (if strContains all "graphql" then ["GraphQL"] else []) ++
  (if strContains all "docker" then ["Docker"] else [])

/-- Find the scanned file with the given lowercased name. -/
def findByName (files : List MarkdownFile) (lowered : String) : Option MarkdownFile :=
  files.find? (fun f => strToLower f.name = lowered)

/-- JavaScript `replace` of the first occurrence of a plain pattern
(no dollar sequences in the replacements used here). -/
def replaceFirst (s pat repl : String) : String :=
  match idxOfSeq pat.data s.data with
  | some i => ⟨s.data.take i ++ repl.data ++ s.data.drop (i + pat.data.length)⟩
  | none => s

/-- The documentation-index line of one key document. -/
def docLine (f : MarkdownFile) : String :=
  "- " ++ ⟨[backtickChar]⟩ ++ relPath f ++ ⟨[backtickChar]⟩ ++
  (if truthyOpt f.description then
    let d := f.description.getD ""
    " - " ++ strTake d 80 ++ (if d.data.length > 80 then "..." else "")
   else if truthyOpt f.title && !(f.title.getD "" = replaceFirst f.name ".md" "") then
    " - " ++ f.title.getD ""
   else "")

/-- `AutoContextService.generateContextSection`: the static context
block appended to agent bodies. -/
def generateContextSection (projectName : String) (files : List MarkdownFile) : String :=
  let readme := findByName files "readme.md"
  let claudeFile := findByName files "claude.md"
  let changelog := findByName files "changelog.md"
  let contributing := findByName files "contributing.md"
  let otherDocs := files.filter (fun f =>
    !(strToLower f.name ∈ ["readme.md", "claude.md", "changelog.md", "contributing.md"]))
  let base := "\n\n## Project Context (Auto-generated)\n\n" ++ "Project: **" ++ projectName ++
    "**\n\n"
  let overview :=
    match readme with
    | some r =>
      let s := extractReadmeSummary r.content
      if s = "" then "" else "### Overview\n" ++ s ++ "\n\n"
    | none => ""
  let guidelines :=
    match claudeFile with
    | some c =>
      let s := extractClaudeContext c.content
      if s = "" then "" else "### Project Guidelines (from CLAUDE.md)\n" ++ s ++ "\n\n"
    | none => ""
  let tech :=
    let ts := detectTechStack files
    if ts.isEmpty then "" else "### Tech Stack\n" ++ strJoin ", " ts ++ "\n\n"
  let keyDocs := otherDocs.take 5
  let docs :=
    if !keyDocs.isEmpty || changelog.isSome || contributing.isSome then
      "### Documentation\n" ++
      (if changelog.isSome then
        "- " ++ ⟨[backtickChar]⟩ ++ "CHANGELOG.md" ++ ⟨[backtickChar]⟩ ++
        " - Project version history\n"
       else "") ++
      (if contributing.isSome then
        "- " ++ ⟨[backtickChar]⟩ ++ "CONTRIBUTING.md" ++ ⟨[backtickChar]⟩ ++
        " - Contribution guidelines\n"
       else "") ++
      strJoin "" (keyDocs.map (fun f => docLine f ++ "\n"))
    else ""
  base ++ overview ++ guidelines ++ tech ++ docs

/-- `AutoContextService.generateDefaultAgentPrompt`. -/
def generateDefaultAgentPrompt (agentName projectName : String) : String :=
  "You are a specialized agent for the **" ++ projectName ++ "** project.\n\n## Your Role\n\nAs the " ++
  agentName ++
  " agent, you help with tasks related to this project. You have knowledge of the project structure, conventions, and codebase.\n\n## Your Responsibilities\n\n- Assist with development tasks within your area of expertise\n- Follow project conventions and patterns\n- Provide accurate information based on the project context below\n- Ask clarifying questions when requirements are unclear\n\n## Guidelines\n\n- Always consider the existing codebase patterns before suggesting changes\n- Prioritize maintainability and readability\n- Test your suggestions mentally before recommending them\n"

/-- The outcome record of `updateAgentWithContextAI`. -/
structure UpdateOutcome where
  success : Bool
  method : String
  error : Option String
deriving DecidableEq

/-- The auto-generated section marker. -/
def contextMarker : String := "## Project Context (Auto-generated)"

/-- The fallback reason embedded in the outcome method when the
assistant fails: the error string, with undefined or empty demoted to
`unknown`. -/
def fallbackReason (response : ClaudeResponse) : String :=
  match response.error with
  | some e => if e = "" then "unknown" else e
  | none => "unknown"

/-- `AutoContextService.updateAgentWithContextAI` given the already
read file content and the assistant response: normalize the header
block, strip a previous auto-generated section, split header from
body, rebuild the body from the response (or fall back), and return
the written content with the outcome. The prompt sent to the
assistant does not affect the result once the response is given, so
it is not modelled. -/
def updateAgentWithContextAI (content agentName projectName : String)
    (files : List MarkdownFile) (response : ClaudeResponse) : String × UpdateOutcome :=
  let c1 := fixFrontmatterFormat content agentName
  let c2 :=
    if strContains c1 contextMarker then
      match idxOfSeq contextMarker.data c1.data with
      | some i => (⟨jsTrimEndL (c1.data.take i)⟩ : String)
      | none => c1
    else c1
  let fmEnd := (idxOfSeq "---".data (c2.data.drop 4)).map (fun i => i + 4)
  let frontmatter :=
    match fmEnd with
    | some i => (⟨c2.data.take (i + 3)⟩ : String)
    | none => ""
  let currentPrompt :=
    match fmEnd with
    | some i => (⟨jsTrimL (c2.data.drop (i + 3))⟩ : String)
    | none => ""
  let result :=
    if response.success then
      let rc := response.content
      match idxOfSeq "## Project Context".data rc.data with
      | some i =>
        if 0 < i then
          (⟨jsTrimL (rc.data.take i)⟩ ++ ("\n\n" ++ (⟨rc.data.drop i⟩ : String)), "AI generated")
        else (rc ++ generateContextSection projectName files, "AI prompt + static context")
      | none => (rc ++ generateContextSection projectName files, "AI prompt + static context")
    else
      let newPrompt :=
        if currentPrompt.data.length > 50 then currentPrompt
        else generateDefaultAgentPrompt agentName projectName
      (newPrompt ++ generateContextSection projectName files,
       "fallback (AI failed: " ++ fallbackReason response ++ ")")
  (frontmatter ++ "\n\n" ++ result.1, ⟨true, result.2, none⟩)

example :
    (updateAgentWithContextAI "---\nname: rev\n---\nShort body" "rev" "proj" []
        ⟨false, "", some "Timeout"⟩).2 =
      ⟨true, "fallback (AI failed: Timeout)", none⟩ := by
  decide

/-! ## Specification-side definitions

The definitions below follow the words of the specification and the
claims, for comparison against the embedded code. -/

/-- Drop everything up to and including the next line that trims to
three hyphens (the close of a delimited region), if there is one. -/
def regionClose : List (List Char) → Option (List (List Char))
  | [] => none
  | l :: rest => if jsTrimL l = ['-', '-', '-'] then some rest else regionClose rest

theorem regionClose_length {ls r : List (List Char)} (h : regionClose ls = some r) :
    r.length < ls.length := by
  induction ls with
  | nil => simp [regionClose] at h
  | cons l rest ih =>
    by_cases hc : jsTrimL l = ['-', '-', '-']
    · simp [regionClose, hc] at h
      subst h
      simp
    · simp [regionClose, hc] at h
      have := ih h
      simp
      omega

set_option linter.unusedVariables false in
/-- The lines lying outside every region delimited by lines that trim
to three hyphens; the delimiter lines are not outside, and an
unclosed region extends to the end. -/
def outsideRegions : List (List Char) → List (List Char)
  | [] => []
  | l :: rest =>
    if jsTrimL l = ['-', '-', '-'] then
      match h : regionClose rest with
      | some r => outsideRegions r
      | none => []
    else l :: outsideRegions rest
termination_by ls => ls.length
decreasing_by
  · have := regionClose_length h
    simp
    omega
  · simp

/-- The first line whose trim is non-empty and does not start with a
hash, truncated to 200 characters. -/
def firstDescCandidate (ls : List (List Char)) : Option (List Char) :=
  ((ls.map jsTrimL).find? (fun t => !t.isEmpty && !(t.head? = some '#'))).map (List.take 200)

/-- Modelled from the words of claim C9: the title is the first line
that is a level-1 heading (hash, space, text), and the description
scan treats only a delimited region at the very top of the file as
skippable. -/
def parseMarkdownClaim (cs : List Char) : Option (List Char) × Option (List Char) :=
  let lines := splitLinesL cs
  let title :=
    (lines.find? (fun l => ['#', ' '].isPrefixOf l)).map (fun l => jsTrimL (l.drop 2))
  let desc :=
    match lines with
    | l :: rest =>
      if jsTrimL l = ['-', '-', '-'] then
        match regionClose rest with
        | some r => firstDescCandidate r
        | none => none
      else firstDescCandidate lines
    | [] => none
  (title, desc)

/-- Hypothesis on an agent base name under which the normalizer is
well behaved: no newline, dollar or quote characters. -/
def nameOKB (n : String) : Bool :=
  !(n.data.contains '\n') && !(n.data.contains dollarChar) &&
  !(n.data.contains '"') && !(n.data.contains aposChar)

/-- The first line of a text: its characters before the first
newline. -/
def firstLineOf (cs : List Char) : List Char :=
  cs.takeWhile (fun c => !(c = '\n'))

/-- Hypothesis on a text under which the normalizer is well behaved:
if a header block matches, its body holds no dollar character and its
first line does not begin with three hyphens. -/
def fmOKB (content : String) : Bool :=
  match parseFM content.data with
  | none => true
  | some (inner, _) =>
    !(inner.contains dollarChar) && !(['-', '-', '-'].isPrefixOf (firstLineOf inner))

/-- The lines of the header block of a text, if one matches. -/
def headerLines (s : String) : List (List Char) :=
  match parseFM s.data with
  | some (inner, _) => splitLinesL inner
  | none => []

/-! ## Lemmas on line splitting and joining -/

theorem splitLinesL_ne_nil (cs : List Char) : splitLinesL cs ≠ [] := by
  induction cs with
  | nil => simp [splitLinesL]
  | cons c t ih =>
    by_cases hc : c = '\n'
    · simp [splitLinesL, hc]
    · simp only [splitLinesL, if_neg hc]
      cases h : splitLinesL t with
      | nil => simp
      | cons a r => simp

theorem splitLinesL_single {l : List Char} (h : l.contains '\n' = false) :
    splitLinesL l = [l] := by
  induction l with
  | nil => rfl
  | cons c t ih =>
    simp only [List.contains_cons, Bool.or_eq_false_iff, beq_eq_false_iff_ne] at h
    obtain ⟨h1, h2⟩ := h
    have h1 : c ≠ '\n' := fun hc => h1 hc.symm
    rw [splitLinesL, if_neg h1, ih h2]

theorem splitLinesL_append {l : List Char} (t : List Char) (h : l.contains '\n' = false) :
    splitLinesL (l ++ '\n' :: t) = l :: splitLinesL t := by
  induction l with
  | nil => simp [splitLinesL]
  | cons c l2 ih =>
    simp only [List.contains_cons, Bool.or_eq_false_iff, beq_eq_false_iff_ne] at h
    obtain ⟨h1, h2⟩ := h
    have h1 : c ≠ '\n' := fun hc => h1 hc.symm
    rw [List.cons_append, splitLinesL, if_neg h1, ih h2]

theorem splitLinesL_joinLinesL {ls : List (List Char)} (hne : ls ≠ [])
    (h : ∀ l ∈ ls, l.contains '\n' = false) : splitLinesL (joinLinesL ls) = ls := by
  induction ls with
  | nil => exact absurd rfl hne
  | cons l r ih =>
    cases r with
    | nil => simpa [joinLinesL] using splitLinesL_single (h l (by simp))
    | cons a r2 =>
      rw [joinLinesL, splitLinesL_append _ (h l (by simp))]
      rw [ih (by simp) (fun x hx => h x (by simp [hx]))]

theorem mem_splitLinesL_no_nl {cs l : List Char} (h : l ∈ splitLinesL cs) :
    l.contains '\n' = false := by
  induction cs generalizing l with
  | nil =>
    simp [splitLinesL] at h
    simp [h]
  | cons c t ih =>
    by_cases hc : c = '\n'
    · simp only [splitLinesL, if_pos hc, List.mem_cons] at h
      rcases h with h | h
      · simp [h]
      · exact ih h
    · simp only [splitLinesL, if_neg hc] at h
      cases hs : splitLinesL t with
      | nil => exact absurd hs (splitLinesL_ne_nil t)
      | cons a r =>
        rw [hs] at h
        rcases List.mem_cons.mp h with h | h
        · subst h
          have ha : a.contains '\n' = false := ih (by rw [hs]; exact List.mem_cons_self a r)
          simp only [List.contains_cons, Bool.or_eq_false_iff, beq_eq_false_iff_ne, ha]
          exact ⟨fun hx => hc hx.symm, trivial⟩
        · exact ih (by rw [hs]; exact List.mem_cons_of_mem a h)

theorem mem_of_mem_splitLinesL {cs l : List Char} (h : l ∈ splitLinesL cs) :
    ∀ c ∈ l, c ∈ cs := by
  induction cs generalizing l with
  | nil =>
    simp [splitLinesL] at h
    simp [h]
  | cons c t ih =>
    intro x hx
    by_cases hc : c = '\n'
    · simp only [splitLinesL, if_pos hc, List.mem_cons] at h
      rcases h with h | h
      · simp [h] at hx
      · exact List.mem_cons_of_mem c (ih h x hx)
    · simp only [splitLinesL, if_neg hc] at h
      cases hs : splitLinesL t with
      | nil => exact absurd hs (splitLinesL_ne_nil t)
      | cons a r =>
        rw [hs] at h
        rcases List.mem_cons.mp h with h | h
        · subst h
          rcases List.mem_cons.mp hx with hx | hx
          · simp [hx]
          · exact List.mem_cons_of_mem c
              (ih (by rw [hs]; exact List.mem_cons_self a r) x hx)
        · exact List.mem_cons_of_mem c
            (ih (by rw [hs]; exact List.mem_cons_of_mem a h) x hx)

theorem mem_joinLinesL {ls : List (List Char)} {c : Char} (h : c ∈ joinLinesL ls) :
    c = '\n' ∨ ∃ l ∈ ls, c ∈ l := by
  induction ls with
  | nil => simp [joinLinesL] at h
  | cons l r ih =>
    cases r with
    | nil =>
      simp only [joinLinesL] at h
      exact Or.inr ⟨l, by simp, h⟩
    | cons a r2 =>
      simp only [joinLinesL, List.mem_append, List.mem_cons] at h
      rcases h with h | h | h
      · exact Or.inr ⟨l, by simp, h⟩
      · exact Or.inl h
      · rcases ih h with h | ⟨x, hx, hc⟩
        · exact Or.inl h
        · exact Or.inr ⟨x, by simp [hx], hc⟩

theorem head_splitLinesL (cs : List Char) :
    ∃ r, splitLinesL cs = firstLineOf cs :: r := by
  induction cs with
  | nil => exact ⟨[], rfl⟩
  | cons c t ih =>
    by_cases hc : c = '\n'
    · subst hc
      refine ⟨splitLinesL t, ?_⟩
      have h1 : firstLineOf ('\n' :: t) = [] := by
        simp [firstLineOf, List.takeWhile]
      rw [h1]
      simp [splitLinesL]
    · obtain ⟨r, hr⟩ := ih
      refine ⟨r, ?_⟩
      have h1 : firstLineOf (c :: t) = c :: firstLineOf t := by
        simp [firstLineOf, List.takeWhile, hc]
      rw [h1]
      simp only [splitLinesL, if_neg hc, hr]

/-! ## Lemmas on the header-block regex -/

theorem isPrefixOf_append_self (a b : List Char) : a.isPrefixOf (a ++ b) = true := by
  induction a with
  | nil => simp [List.isPrefixOf]
  | cons c t ih => simp [List.isPrefixOf, ih]

theorem isPrefixOf_of_take {l : List Char} {p : List Char} {n : Nat}
    (h : l.take n = p) : p.isPrefixOf l = true := by
  have hsplit : l = p ++ l.drop n := by rw [← h, List.take_append_drop]
  rw [hsplit]
  exact isPrefixOf_append_self p _

theorem containsSeq_cons_false {pat : List Char} {c : Char} {t : List Char}
    (h : containsSeq pat (c :: t) = false) :
    pat.isPrefixOf (c :: t) = false ∧ containsSeq pat t = false := by
  simpa [containsSeq] using h

theorem findClose_append {cs : List Char} (rest : List Char)
    (h : containsSeq closePat cs = false) :
    findClose (cs ++ '\n' :: '-' :: '-' :: '-' :: rest) = some (cs, rest) := by
  induction cs with
  | nil => simp [findClose]
  | cons c t ih =>
    obtain ⟨hp, h2⟩ := containsSeq_cons_false h
    rw [List.cons_append, findClose]
    have hguard :
        ¬(c = '\n' && (t ++ '\n' :: '-' :: '-' :: '-' :: rest).take 3 = ['-', '-', '-']) = true := by
      intro hg
      simp only [Bool.and_eq_true, decide_eq_true_eq] at hg
      obtain ⟨hc, htake⟩ := hg
      subst hc
      rcases t with _ | ⟨a, _ | ⟨b, _ | ⟨d, t3⟩⟩⟩
      · simp at htake
      · simp at htake
      · simp at htake
      · simp only [List.cons_append, List.take] at htake
        obtain ⟨ha, hb, hd⟩ : a = '-' ∧ b = '-' ∧ d = '-' := by
          simpa using htake
        subst ha; subst hb; subst hd
        simp [closePat, List.isPrefixOf] at hp
    rw [if_neg hguard, ih h2]
    rfl

theorem parseFM_reconstruct {cs : List Char} (rest : List Char)
    (h : containsSeq closePat cs = false) :
    parseFM ('-' :: '-' :: '-' :: '\n' :: (cs ++ '\n' :: '-' :: '-' :: '-' :: rest)) =
      some (cs, rest) := by
  rw [parseFM]
  simp only [List.take, List.drop, if_pos rfl]
  exact findClose_append rest h

theorem findClose_inv {cs inner rest : List Char} (h : findClose cs = some (inner, rest)) :
    cs = inner ++ '\n' :: '-' :: '-' :: '-' :: rest := by
  induction cs generalizing inner with
  | nil => simp [findClose] at h
  | cons c t ih =>
    rw [findClose] at h
    by_cases hg : (c = '\n' && t.take 3 = ['-', '-', '-']) = true
    · rw [if_pos hg] at h
      simp only [Option.some.injEq, Prod.mk.injEq] at h
      obtain ⟨h1, h2⟩ := h
      simp only [Bool.and_eq_true, decide_eq_true_eq] at hg
      obtain ⟨hc, htake⟩ := hg
      subst hc
      rw [← h1, List.nil_append, ← h2]
      have hta := List.take_append_drop 3 t
      rw [htake] at hta
      conv_lhs => rw [← hta]
      simp
    · rw [if_neg hg] at h
      cases hf : findClose t with
      | none => simp [hf] at h
      | some p =>
        obtain ⟨pin, prest⟩ := p
        rw [hf] at h
        simp only [Option.map_some', Option.some.injEq, Prod.mk.injEq] at h
        obtain ⟨h1, h2⟩ := h
        have ht : t = pin ++ '\n' :: '-' :: '-' :: '-' :: rest := by
          apply ih
          rw [hf, h2]
        rw [← h1, ht, List.cons_append]
theorem findClose_noClose {cs inner rest : List Char} (h : findClose cs = some (inner, rest)) :
    containsSeq closePat inner = false := by
  induction cs generalizing inner with
  | nil => simp [findClose] at h
  | cons c t ih =>
    rw [findClose] at h
    by_cases hg : (c = '\n' && t.take 3 = ['-', '-', '-']) = true
    · rw [if_pos hg] at h
      simp only [Option.some.injEq, Prod.mk.injEq] at h
      rw [← h.1]
      rfl
    · rw [if_neg hg] at h
      cases hf : findClose t with
      | none => simp [hf] at h
      | some p =>
        obtain ⟨pin, prest⟩ := p
        rw [hf] at h
        simp only [Option.map_some', Option.some.injEq, Prod.mk.injEq] at h
        obtain ⟨h1, h2⟩ := h
        have hrec : containsSeq closePat pin = false :=
          ih (show findClose t = some (pin, rest) by rw [hf, h2])
        rw [← h1]
        simp only [containsSeq, Bool.or_eq_false_iff]
        refine ⟨?_, hrec⟩
        by_cases hc : c = '\n'
        · subst hc
          cases hpre : (['-', '-', '-'] : List Char).isPrefixOf pin with
          | false =>
            simp only [closePat, List.isPrefixOf, Bool.and_eq_false_iff]
            right
            simpa [List.isPrefixOf] using hpre
          | true =>
            exfalso
            obtain ⟨s, hs⟩ := List.isPrefixOf_iff_prefix.mp hpre
            have ht : t = pin ++ '\n' :: '-' :: '-' :: '-' :: rest := by
              apply findClose_inv
              rw [hf, h2]
            apply hg
            rw [ht, ← hs]
            simp
        · simp [closePat, List.isPrefixOf]
          intro hx
          exact absurd hx.symm hc

theorem noClose_of_no_nl {l : List Char} (h : l.contains '\n' = false) :
    containsSeq closePat l = false := by
  induction l with
  | nil => rfl
  | cons c t ih =>
    simp only [List.contains_cons, Bool.or_eq_false_iff, beq_eq_false_iff_ne] at h
    obtain ⟨h1, h2⟩ := h
    simp only [containsSeq, Bool.or_eq_false_iff]
    constructor
    · simp [closePat, List.isPrefixOf]
      intro hx
      exact absurd hx h1
    · exact ih (by simpa using h2)

theorem h3_append_nl (a X : List Char) :
    (['-', '-', '-'] : List Char).isPrefixOf (a ++ '\n' :: X) =
      (['-', '-', '-'] : List Char).isPrefixOf a := by
  rcases a with _ | ⟨x, _ | ⟨y, _ | ⟨z, t⟩⟩⟩ <;> simp [List.isPrefixOf]

theorem noClose_append_line {l J : List Char} (hl : l.contains '\n' = false)
    (hJ3 : (['-', '-', '-'] : List Char).isPrefixOf J = false)
    (hJ : containsSeq closePat J = false) :
    containsSeq closePat (l ++ '\n' :: J) = false := by
  induction l with
  | nil =>
    simp only [List.nil_append, containsSeq, Bool.or_eq_false_iff]
    refine ⟨?_, hJ⟩
    simp [closePat, List.isPrefixOf, hJ3]
  | cons c t ih =>
    simp only [List.contains_cons, Bool.or_eq_false_iff, beq_eq_false_iff_ne] at hl
    obtain ⟨h1, h2⟩ := hl
    simp only [List.cons_append, containsSeq, Bool.or_eq_false_iff]
    constructor
    · simp [closePat, List.isPrefixOf]
      intro hx
      exact absurd hx h1
    · exact ih (by simpa using h2)

theorem h3_joinLinesL {ls : List (List Char)} (hne : ls ≠ [])
    (h : ∀ l ∈ ls, (['-', '-', '-'] : List Char).isPrefixOf l = false) :
    (['-', '-', '-'] : List Char).isPrefixOf (joinLinesL ls) = false := by
  cases ls with
  | nil => exact absurd rfl hne
  | cons a r =>
    cases r with
    | nil => exact h a (by simp)
    | cons b r2 =>
      rw [joinLinesL, h3_append_nl]
      exact h a (by simp)

theorem noClose_joinLinesL {ls : List (List Char)} (hne : ls ≠ [])
    (hnl : ∀ l ∈ ls, l.contains '\n' = false)
    (hh3 : ∀ l ∈ ls, (['-', '-', '-'] : List Char).isPrefixOf l = false) :
    containsSeq closePat (joinLinesL ls) = false := by
  induction ls with
  | nil => exact absurd rfl hne
  | cons a r ih =>
    cases r with
    | nil => exact noClose_of_no_nl (hnl a (by simp))
    | cons b r2 =>
      rw [joinLinesL]
      refine noClose_append_line (hnl a (by simp)) ?_ ?_
      · exact h3_joinLinesL (by simp) (fun l hl => hh3 l (List.mem_cons_of_mem a hl))
      · exact ih (by simp) (fun l hl => hnl l (List.mem_cons_of_mem a hl))
          (fun l hl => hh3 l (List.mem_cons_of_mem a hl))

/-! ## Lemmas on the per-line normalization -/

theorem takeWhile_drop_eq (p : Char → Bool) (l : List Char) :
    l.takeWhile p ++ l.drop (l.takeWhile p).length = l := by
  induction l with
  | nil => rfl
  | cons c t ih =>
    by_cases hc : p c
    · simp [List.takeWhile_cons, hc, ih]
    · simp [List.takeWhile_cons, hc]

theorem jsSpace_not_fieldChar {c : Char} (h : jsSpace c = true) : isFieldChar c = false := by
  simp only [jsSpace, Bool.or_eq_true, decide_eq_true_eq] at h
  rcases h with ((((((h | h) | h) | h) | h) | h) | h) | h
  all_goals (subst h; decide)

theorem jsSpace_ne_hyphen {c : Char} (h : jsSpace c = true) : c ≠ '-' := by
  intro hc
  subst hc
  simp [jsSpace] at h

theorem fieldChar_ne_colon {c : Char} (h : isFieldChar c = true) : c ≠ ':' := by
  intro hc
  subst hc
  exact absurd h (by decide)

theorem parseQuoted_inv {l ind f v : List Char} (h : parseQuoted l = some (ind, f, v)) :
    ind = l.takeWhile jsSpace ∧ f = (l.dropWhile jsSpace).takeWhile isFieldChar ∧
    f.isEmpty = false ∧ v.isEmpty = false ∧ v.all (fun c => !(isQuoteChar c)) = true ∧
    ∃ r3, l.dropWhile jsSpace = f ++ ':' :: r3 ∧
      ∃ q r5, r3.dropWhile jsSpace = q :: r5 ∧ isQuoteChar q = true ∧
        v = r5.takeWhile (fun c => !(isQuoteChar c)) ∧ v ++ r5.drop v.length = r5 := by
  simp only [parseQuoted] at h
  split at h
  · exact absurd h (by simp)
  · rename_i hfield
    split at h
    next r3 heq2 =>
      split at h
      next q r5 heq4 =>
        split at h
        · rename_i hq
          split at h
          next q2 r7 heq6 =>
            split at h
            · exact absurd h (by simp)
            · rename_i hv
              split at h
              · rename_i hws
                simp only [Option.some.injEq, Prod.mk.injEq] at h
                obtain ⟨h1, h2, h3⟩ := h
                subst h1; subst h2; subst h3
                refine ⟨rfl, rfl, by simpa using hfield, by simpa using hv, ?_, ?_⟩
                · exact List.all_takeWhile
                · refine ⟨r3, ?_, q, r5, heq4, hq, rfl, takeWhile_drop_eq _ r5⟩
                  conv =>
                    lhs
                    rw [← takeWhile_drop_eq isFieldChar (l.dropWhile jsSpace)]
                  rw [heq2]
              · exact absurd h (by simp)
          next heq6 => exact absurd h (by simp)
        · exact absurd h (by simp)
      next heq4 => exact absurd h (by simp)
    next x heq2 => exact absurd h (by simp)

theorem takeWhile_append_stop {p : Char → Bool} {a : List Char} (b : Char) (c : List Char)
    (ha : a.all p = true) (hb : p b = false) : (a ++ b :: c).takeWhile p = a := by
  induction a with
  | nil => simp [List.takeWhile_cons, hb]
  | cons x t ih =>
    simp only [List.all_cons, Bool.and_eq_true] at ha
    simp [List.takeWhile_cons, ha.1, ih ha.2]

theorem dropWhile_append_all {p : Char → Bool} {a : List Char} (b : List Char)
    (ha : a.all p = true) : (a ++ b).dropWhile p = b.dropWhile p := by
  induction a with
  | nil => rfl
  | cons x t ih =>
    simp only [List.all_cons, Bool.and_eq_true] at ha
    simp [List.dropWhile_cons, ha.1, ih ha.2]

theorem dropWhile_cons_stop {p : Char → Bool} {x : Char} (xs : List Char)
    (hx : p x = false) : (x :: xs).dropWhile p = x :: xs := by
  simp [List.dropWhile_cons, hx]

theorem mem_of_mem_dropWhile {p : Char → Bool} {l : List Char} {c : Char}
    (h : c ∈ l.dropWhile p) : c ∈ l :=
  (List.dropWhile_sublist p).mem h

theorem mem_of_mem_takeWhile {p : Char → Bool} {l : List Char} {c : Char}
    (h : c ∈ l.takeWhile p) : c ∈ l :=
  (List.takeWhile_sublist p).mem h

theorem key_prefix_iff {key f : List Char} (X : List Char) (hk : key.all isFieldChar = true)
    (hf : f.all isFieldChar = true) :
    ((key ++ [':']).isPrefixOf (f ++ ':' :: X) = true) ↔ key = f := by
  induction key generalizing f with
  | nil =>
    cases f with
    | nil => simp [List.isPrefixOf]
    | cons fc f2 =>
      simp only [List.all_cons, Bool.and_eq_true] at hf
      have hne := fieldChar_ne_colon hf.1
      simp [List.isPrefixOf]
      intro hx
      exact absurd hx.symm hne
  | cons kc k2 ih =>
    simp only [List.all_cons, Bool.and_eq_true] at hk
    cases f with
    | nil =>
      have hne := fieldChar_ne_colon hk.1
      simp [List.isPrefixOf, hne]
    | cons fc f2 =>
      simp only [List.all_cons, Bool.and_eq_true] at hf
      simp only [List.cons_append, List.isPrefixOf, Bool.and_eq_true, beq_iff_eq]
      refine Iff.intro ?_ ?_
      · rintro ⟨ha, hb⟩
        rw [ha, (ih hk.2 hf.2).mp hb]
      · intro hx
        injection hx with ha hb
        subst ha
        subst hb
        exact ⟨rfl, (ih hk.2 hf.2).mpr rfl⟩

theorem dropWhile_key_line {key : List Char} (rest : List Char)
    (hk : key.all isFieldChar = true) (hk0 : key ≠ []) :
    (key ++ ':' :: ' ' :: rest).dropWhile jsSpace = key ++ ':' :: ' ' :: rest := by
  cases key with
  | nil => exact absurd rfl hk0
  | cons kc kt =>
    have hkc : isFieldChar kc = true := by
      simp only [List.all_cons, Bool.and_eq_true] at hk
      exact hk.1
    have hns : jsSpace kc = false := by
      cases hjs : jsSpace kc with
      | false => rfl
      | true => rw [jsSpace_not_fieldChar hjs] at hkc; exact absurd hkc (by simp)
    rw [List.cons_append]
    exact dropWhile_cons_stop _ hns

theorem parseQuoted_key_no_quote {key : List Char} (rest : List Char)
    (hk : key.all isFieldChar = true) (hk0 : key ≠ [])
    (hnq : ∀ c r, rest.dropWhile jsSpace = c :: r → isQuoteChar c = false) :
    parseQuoted (key ++ ':' :: ' ' :: rest) = none := by
  cases hp : parseQuoted (key ++ ':' :: ' ' :: rest) with
  | none => rfl
  | some trip =>
    exfalso
    obtain ⟨i, f, v⟩ := trip
    obtain ⟨hi, hfe, hf0, hv0, hvq, r3, hr3, q, r5, hr5, hq, hvtw, hvsp⟩ := parseQuoted_inv hp
    rw [dropWhile_key_line rest hk hk0] at hr3
    rw [hfe, dropWhile_key_line rest hk hk0,
      takeWhile_append_stop ':' _ hk (by decide)] at hr3
    have hr3e : (' ' :: rest : List Char) = r3 := by
      have := List.append_cancel_left hr3
      injection this
    have hdrop : r3.dropWhile jsSpace = rest.dropWhile jsSpace := by
      have hsp : jsSpace ' ' = true := by decide
      rw [← hr3e, List.dropWhile_cons, if_pos hsp]
    rw [hdrop] at hr5
    rw [hnq q r5 hr5] at hq
    exact absurd hq (by simp)

theorem parseQuoted_ws_key_no_quote {ind key : List Char} (rest : List Char)
    (hind : ind.all jsSpace = true)
    (hk : key.all isFieldChar = true) (hk0 : key ≠ [])
    (hnq : ∀ c r, rest.dropWhile jsSpace = c :: r → isQuoteChar c = false) :
    parseQuoted (ind ++ key ++ ':' :: ' ' :: rest) = none := by
  cases hp : parseQuoted (ind ++ key ++ ':' :: ' ' :: rest) with
  | none => rfl
  | some trip =>
    exfalso
    obtain ⟨i, f, v⟩ := trip
    obtain ⟨hi, hfe, hf0, hv0, hvq, r3, hr3, q, r5, hr5, hq, hvtw, hvsp⟩ := parseQuoted_inv hp
    have hdwa : (ind ++ key ++ ':' :: ' ' :: rest).dropWhile jsSpace =
        key ++ ':' :: ' ' :: rest := by
      rw [List.append_assoc, dropWhile_append_all _ hind]
      exact dropWhile_key_line rest hk hk0
    rw [hdwa] at hr3
    rw [hfe, hdwa, takeWhile_append_stop ':' _ hk (by decide)] at hr3
    have hr3e : (' ' :: rest : List Char) = r3 := by
      have := List.append_cancel_left hr3
      injection this
    have hdrop : r3.dropWhile jsSpace = rest.dropWhile jsSpace := by
      have hsp : jsSpace ' ' = true := by decide
      rw [← hr3e, List.dropWhile_cons, if_pos hsp]
    rw [hdrop] at hr5
    rw [hnq q r5 hr5] at hq
    exact absurd hq (by simp)

theorem fixLine_eq_of_none {l : List Char} (h : parseQuoted l = none) : fixLine l = l := by
  unfold fixLine
  rw [h]

theorem fixLine_eq_of_quotes {l ind f v : List Char} (h : parseQuoted l = some (ind, f, v))
    (hq : needsQuotes v = true) : fixLine l = l := by
  unfold fixLine
  rw [h]
  simp [hq]

theorem fixLine_eq_strip {l ind f v : List Char} (h : parseQuoted l = some (ind, f, v))
    (hq : needsQuotes v = false) : fixLine l = ind ++ f ++ ':' :: ' ' :: v := by
  unfold fixLine
  rw [h]
  simp [hq]

theorem all_mem_of_all {p : Char → Bool} {l : List Char} (h : l.all p = true) :
    ∀ c ∈ l, p c = true := by
  intro c hc
  exact List.all_eq_true.mp h c hc

theorem fixLine_idem (l : List Char) : fixLine (fixLine l) = fixLine l := by
  cases hp : parseQuoted l with
  | none => rw [fixLine_eq_of_none hp, fixLine_eq_of_none hp]
  | some trip =>
    obtain ⟨ind, f, v⟩ := trip
    cases hq : needsQuotes v with
    | true => rw [fixLine_eq_of_quotes hp hq, fixLine_eq_of_quotes hp hq]
    | false =>
      rw [fixLine_eq_strip hp hq]
      obtain ⟨hi, hfe, hf0, hv0, hvq, r3, hr3, q, r5, hr5, hqc, hvtw, hvsp⟩ := parseQuoted_inv hp
      apply fixLine_eq_of_none
      apply parseQuoted_ws_key_no_quote
      · rw [hi]
        exact List.all_takeWhile
      · rw [hfe]
        exact List.all_takeWhile
      · intro hx
        rw [hx] at hf0
        exact absurd hf0 (by simp [List.isEmpty])
      · intro c r hcr
        have hcm : c ∈ v := by
          apply mem_of_mem_dropWhile (p := jsSpace)
          rw [hcr]
          exact List.mem_cons_self c r
        have := all_mem_of_all hvq c hcm
        simpa using this

theorem keyFlagLine_fixLine {key : List Char} (hk : key.all isFieldChar = true)
    (l : List Char) : keyFlagLine key (fixLine l) = keyFlagLine key l := by
  cases hp : parseQuoted l with
  | none => rw [fixLine_eq_of_none hp]
  | some trip =>
    obtain ⟨ind, f, v⟩ := trip
    cases hq : needsQuotes v with
    | true => rw [fixLine_eq_of_quotes hp hq]
    | false =>
      rw [fixLine_eq_strip hp hq]
      obtain ⟨hi, hfe, hf0, hv0, hvq, r3, hr3, q, r5, hr5, hqc, hvtw, hvsp⟩ := parseQuoted_inv hp
      have hfall : f.all isFieldChar = true := by
        rw [hfe]
        exact List.all_takeWhile
      have hfne : f ≠ [] := by
        intro hx
        rw [hx] at hf0
        exact absurd hf0 (by simp [List.isEmpty])
      have hindall : ind.all jsSpace = true := by
        rw [hi]
        exact List.all_takeWhile
      have hdwa : (ind ++ f ++ ':' :: ' ' :: v).dropWhile jsSpace = f ++ ':' :: ' ' :: v := by
        rw [List.append_assoc, dropWhile_append_all _ hindall]
        exact dropWhile_key_line v hfall hfne
      have h1 : keyFlagLine key (ind ++ f ++ ':' :: ' ' :: v) = true ↔ key = f := by
        rw [keyFlagLine, hdwa]
        exact key_prefix_iff _ hk hfall
      have h2 : keyFlagLine key l = true ↔ key = f := by
        rw [keyFlagLine, hr3]
        exact key_prefix_iff _ hk hfall
      rw [Bool.eq_iff_iff]
      exact h1.trans h2.symm

theorem isDroppedLine_fixLine (l : List Char) : isDroppedLine (fixLine l) = isDroppedLine l := by
  unfold isDroppedLine
  rw [keyFlagLine_fixLine (by decide) l, keyFlagLine_fixLine (by decide) l]

theorem fixLine_mem {l : List Char} {c : Char} (h : c ∈ fixLine l) :
    c ∈ l ∨ c = ':' ∨ c = ' ' := by
  cases hp : parseQuoted l with
  | none => rw [fixLine_eq_of_none hp] at h; exact Or.inl h
  | some trip =>
    obtain ⟨ind, f, v⟩ := trip
    cases hq : needsQuotes v with
    | true => rw [fixLine_eq_of_quotes hp hq] at h; exact Or.inl h
    | false =>
      rw [fixLine_eq_strip hp hq] at h
      obtain ⟨hi, hfe, hf0, hv0, hvq, r3, hr3, q, r5, hr5, hqc, hvtw, hvsp⟩ := parseQuoted_inv hp
      simp only [List.append_assoc, List.mem_append, List.mem_cons] at h
      rcases h with h | h | h | h
      · left
        apply mem_of_mem_takeWhile (p := jsSpace)
        rw [← hi]
        exact h
      · left
        apply mem_of_mem_dropWhile (p := jsSpace)
        rw [hr3]
        simp [List.mem_append]
        left
        exact h
      · exact Or.inr (Or.inl h)
      · rcases h with h | h
        · exact Or.inr (Or.inr h)
        · left
          apply mem_of_mem_dropWhile (p := jsSpace)
          rw [hr3]
          simp [List.mem_append]
          right
          right
          apply mem_of_mem_dropWhile (p := jsSpace)
          rw [hr5]
          right
          rw [hvtw] at h
          exact mem_of_mem_takeWhile h

theorem dropWhile_eq_self_of_takeWhile_nil {p : Char → Bool} {l : List Char}
    (h : l.takeWhile p = []) : l.dropWhile p = l := by
  cases l with
  | nil => rfl
  | cons c t =>
    rw [List.takeWhile_cons] at h
    by_cases hc : p c = true
    · rw [if_pos hc] at h
      exact absurd h (by simp)
    · simp only [Bool.not_eq_true] at hc
      rw [List.dropWhile_cons, hc]
      simp

theorem mem_takeWhile_pred {p : Char → Bool} {l : List Char} {c : Char}
    (h : c ∈ l.takeWhile p) : p c = true := by
  induction l with
  | nil => simp [List.takeWhile] at h
  | cons x t ih =>
    rw [List.takeWhile_cons] at h
    by_cases hx : p x = true
    · rw [if_pos hx] at h
      rcases List.mem_cons.mp h with h | h
      · rw [h]; exact hx
      · exact ih h
    · rw [if_neg (by simpa using hx)] at h
      simp at h

theorem fixLine_not_h3 {l : List Char}
    (h : (['-', '-', '-'] : List Char).isPrefixOf l = false) :
    (['-', '-', '-'] : List Char).isPrefixOf (fixLine l) = false := by
  cases hp : parseQuoted l with
  | none => rw [fixLine_eq_of_none hp]; exact h
  | some trip =>
    obtain ⟨ind, f, v⟩ := trip
    cases hq : needsQuotes v with
    | true => rw [fixLine_eq_of_quotes hp hq]; exact h
    | false =>
      rw [fixLine_eq_strip hp hq]
      obtain ⟨hi, hfe, hf0, hv0, hvq, r3, hr3, q, r5, hr5, hqc, hvtw, hvsp⟩ := parseQuoted_inv hp
      cases hind : ind with
      | cons ic ind2 =>
        have hic : jsSpace ic = true := by
          apply mem_takeWhile_pred (p := jsSpace) (l := l)
          rw [← hi, hind]
          exact List.mem_cons_self ic ind2
        have := jsSpace_ne_hyphen hic
        simp [List.isPrefixOf]
        intro hx
        exact absurd hx.symm this
      | nil =>
        have hl : l.dropWhile jsSpace = l := by
          apply dropWhile_eq_self_of_takeWhile_nil
          rw [← hi, hind]
        rw [hl] at hr3
        simp only [List.nil_append]
        rcases hf : f with _ | ⟨a, _ | ⟨b, _ | ⟨c2, f3⟩⟩⟩
        · rw [hf] at hf0
          exact absurd hf0 (by simp [List.isEmpty])
        · simp [List.isPrefixOf]
        · simp [List.isPrefixOf]
        · rw [hf] at hr3
          rw [hr3] at h
          simp only [List.cons_append, List.isPrefixOf, Bool.and_eq_false_iff] at h ⊢
          rcases h with h | h
          · exact Or.inl h
          · rcases h with h | h
            · exact Or.inr (Or.inl h)
            · rcases h with h | h
              · exact Or.inr (Or.inr (Or.inl h))
              · exact absurd h (by simp [List.isPrefixOf])

theorem not_mem_of_contains_false {l : List Char} {a : Char} (h : l.contains a = false) :
    a ∉ l := by
  simpa using h

theorem no_quote_chars {n : List Char} (h3 : n.contains '"' = false)
    (h4 : n.contains aposChar = false) : ∀ c ∈ n, isQuoteChar c = false := by
  intro c hc
  have hq1 : c ≠ '"' := fun hx => not_mem_of_contains_false h3 (hx ▸ hc)
  have hq2 : c ≠ aposChar := fun hx => not_mem_of_contains_false h4 (hx ▸ hc)
  simp [isQuoteChar, hq1, hq2]

theorem fixLine_nameLine {n : List Char} (h3 : n.contains '"' = false)
    (h4 : n.contains aposChar = false) : fixLine (nameLine n) = nameLine n := by
  apply fixLine_eq_of_none
  show parseQuoted ("name".data ++ ':' :: ' ' :: n) = none
  apply parseQuoted_key_no_quote n (by decide) (by decide)
  intro c r hcr
  apply no_quote_chars h3 h4
  apply mem_of_mem_dropWhile (p := jsSpace)
  rw [hcr]
  exact List.mem_cons_self c r

theorem fixLine_descLine (n : List Char) : fixLine (descLine n) = descLine n := by
  apply fixLine_eq_of_none
  show parseQuoted ("description".data ++ ':' :: ' ' :: ("Agent for ".data ++ n)) = none
  apply parseQuoted_key_no_quote _ (by decide) (by decide)
  intro c r hcr
  have hstep : ("Agent for ".data ++ n).dropWhile jsSpace = 'A' :: ("gent for ".data ++ n) := by
    show ('A' :: ("gent for ".data ++ n)).dropWhile jsSpace = 'A' :: ("gent for ".data ++ n)
    exact dropWhile_cons_stop _ (by decide)
  rw [hstep] at hcr
  injection hcr with hc hr
  rw [← hc]
  decide

theorem fixLine_modelLine : fixLine modelLine = modelLine := by decide

theorem keyFlag_nameLine (n : List Char) : keyFlagLine "name".data (nameLine n) = true := by
  show keyFlagLine "name".data ("name".data ++ ':' :: ' ' :: n) = true
  rw [keyFlagLine, dropWhile_key_line n (by decide) (by decide)]
  have : ("name".data ++ [':']) ++ ' ' :: n = "name".data ++ ':' :: ' ' :: n := by
    rw [List.append_assoc]
    rfl
  rw [← this]
  exact isPrefixOf_append_self _ _

theorem keyFlag_descLine (n : List Char) :
    keyFlagLine "description".data (descLine n) = true := by
  show keyFlagLine "description".data
    ("description".data ++ ':' :: ' ' :: ("Agent for ".data ++ n)) = true
  rw [keyFlagLine, dropWhile_key_line _ (by decide) (by decide)]
  have : ("description".data ++ [':']) ++ ' ' :: ("Agent for ".data ++ n) =
      "description".data ++ ':' :: ' ' :: ("Agent for ".data ++ n) := by
    rw [List.append_assoc]
    rfl
  rw [← this]
  exact isPrefixOf_append_self _ _

theorem keyFlag_modelLine : keyFlagLine "model".data modelLine = true := by decide

theorem keyFlag_of_key_line {key other : List Char} (rest : List Char)
    (hk : key.all isFieldChar = true) (hk0 : key ≠ [])
    (ho : other.all isFieldChar = true) (hne : other ≠ key) :
    keyFlagLine other (key ++ ':' :: ' ' :: rest) = false := by
  rw [keyFlagLine, dropWhile_key_line rest hk hk0]
  cases hx : (other ++ [':']).isPrefixOf (key ++ ':' :: ' ' :: rest) with
  | false => rfl
  | true => exact absurd ((key_prefix_iff _ ho hk).mp hx) hne

theorem isDropped_nameLine (n : List Char) : isDroppedLine (nameLine n) = false := by
  show isDroppedLine ("name".data ++ ':' :: ' ' :: n) = false
  unfold isDroppedLine
  rw [keyFlag_of_key_line n (by decide) (by decide) (by decide) (by decide),
    keyFlag_of_key_line n (by decide) (by decide) (by decide) (by decide)]
  rfl

theorem isDropped_descLine (n : List Char) : isDroppedLine (descLine n) = false := by
  show isDroppedLine ("description".data ++ ':' :: ' ' :: ("Agent for ".data ++ n)) = false
  unfold isDroppedLine
  rw [keyFlag_of_key_line _ (by decide) (by decide) (by decide) (by decide),
    keyFlag_of_key_line _ (by decide) (by decide) (by decide) (by decide)]
  rfl

theorem isDropped_modelLine : isDroppedLine modelLine = false := by decide

theorem mem_if_nil_cases {b : Bool} {x l : List Char} (h : l ∈ if b = true then ([] : List (List Char)) else [x]) :
    b = false ∧ l = x := by
  cases b with
  | true => simp at h
  | false =>
    simp only [Bool.false_eq_true, if_false, List.mem_cons, List.not_mem_nil, or_false] at h
    exact ⟨rfl, h⟩

theorem processBlock_mem {inner n l : List Char} (h : l ∈ processBlock inner n) :
    (∃ l0, l0 ∈ (splitLinesL inner).filter (fun x => !(isDroppedLine x)) ∧ l = fixLine l0) ∨
    l = nameLine n ∨ l = descLine n ∨ l = modelLine := by
  simp only [processBlock, List.mem_append] at h
  rcases h with ((h | h) | h) | h
  · right
    left
    exact (mem_if_nil_cases h).2
  · left
    obtain ⟨l0, hl0, hfx⟩ := List.mem_map.mp h
    exact ⟨l0, hl0, hfx.symm⟩
  · right
    right
    left
    exact (mem_if_nil_cases h).2
  · right
    right
    right
    exact (mem_if_nil_cases h).2

theorem contains_false_iff {l : List Char} {a : Char} : l.contains a = false ↔ a ∉ l := by
  simp

theorem fixLine_contains_false {l0 : List Char} {a : Char} (h : l0.contains a = false)
    (h1 : a ≠ ':') (h2 : a ≠ ' ') : (fixLine l0).contains a = false := by
  rw [contains_false_iff]
  intro hmem
  rcases fixLine_mem hmem with hx | hx | hx
  · exact contains_false_iff.mp h hx
  · exact h1 hx
  · exact h2 hx

theorem processBlock_no_nl {inner n : List Char} (hn1 : n.contains '\n' = false) :
    ∀ l ∈ processBlock inner n, l.contains '\n' = false := by
  intro l hl
  rcases processBlock_mem hl with ⟨l0, hl0, hfx⟩ | hx | hx | hx
  · rw [hfx]
    exact fixLine_contains_false (mem_splitLinesL_no_nl (List.mem_of_mem_filter hl0))
      (by decide) (by decide)
  · rw [hx, contains_false_iff]
    intro hmem
    rcases List.mem_append.mp hmem with hm | hm
    · exact absurd hm (by decide)
    · exact contains_false_iff.mp hn1 hm
  · rw [hx, contains_false_iff]
    intro hmem
    rcases List.mem_append.mp hmem with hm | hm
    · exact absurd hm (by decide)
    · exact contains_false_iff.mp hn1 hm
  · rw [hx]
    decide

theorem splitLine_contains_false {inner l0 : List Char} {a : Char}
    (h : inner.contains a = false) (hl0 : l0 ∈ splitLinesL inner) : l0.contains a = false := by
  rw [contains_false_iff]
  intro hmem
  exact contains_false_iff.mp h (mem_of_mem_splitLinesL hl0 a hmem)

theorem processBlock_no_dollar {inner n : List Char} (hd : inner.contains dollarChar = false)
    (hn2 : n.contains dollarChar = false) :
    ∀ l ∈ processBlock inner n, l.contains dollarChar = false := by
  intro l hl
  rcases processBlock_mem hl with ⟨l0, hl0, hfx⟩ | hx | hx | hx
  · rw [hfx]
    exact fixLine_contains_false
      (splitLine_contains_false hd (List.mem_of_mem_filter hl0)) (by decide) (by decide)
  · rw [hx, contains_false_iff]
    intro hmem
    rcases List.mem_append.mp hmem with hm | hm
    · exact absurd hm (by decide)
    · exact contains_false_iff.mp hn2 hm
  · rw [hx, contains_false_iff]
    intro hmem
    rcases List.mem_append.mp hmem with hm | hm
    · exact absurd hm (by decide)
    · exact contains_false_iff.mp hn2 hm
  · rw [hx]
    decide

theorem processBlock_not_h3 {inner n : List Char}
    (hh3 : ∀ l ∈ splitLinesL inner, (['-', '-', '-'] : List Char).isPrefixOf l = false) :
    ∀ l ∈ processBlock inner n, (['-', '-', '-'] : List Char).isPrefixOf l = false := by
  intro l hl
  rcases processBlock_mem hl with ⟨l0, hl0, hfx⟩ | hx | hx | hx
  · rw [hfx]
    exact fixLine_not_h3 (hh3 l0 (List.mem_of_mem_filter hl0))
  · rw [hx]
    simp [nameLine, List.isPrefixOf]
  · rw [hx]
    simp [descLine, List.isPrefixOf]
  · rw [hx]
    decide

theorem processBlock_not_dropped {inner n : List Char} :
    ∀ l ∈ processBlock inner n, isDroppedLine l = false := by
  intro l hl
  rcases processBlock_mem hl with ⟨l0, hl0, hfx⟩ | hx | hx | hx
  · rw [hfx, isDroppedLine_fixLine]
    have := (List.mem_filter.mp hl0).2
    simpa using this
  · rw [hx]
    exact isDropped_nameLine n
  · rw [hx]
    exact isDropped_descLine n
  · rw [hx]
    exact isDropped_modelLine

theorem processBlock_ne_nil (inner n : List Char) : processBlock inner n ≠ [] := by
  simp only [processBlock]
  intro hx
  rcases List.append_eq_nil.mp hx with ⟨hy, hmodel⟩
  rcases List.append_eq_nil.mp hy with ⟨hz, hdesc⟩
  rcases List.append_eq_nil.mp hz with ⟨hname, hfixed⟩
  by_cases hany :
      ((splitLinesL inner).filter (fun l => !(isDroppedLine l))).any
        (keyFlagLine ['n', 'a', 'm', 'e']) = true
  · obtain ⟨w, hw, hwf⟩ := List.any_eq_true.mp hany
    have : fixLine w ∈ ((splitLinesL inner).filter (fun l => !(isDroppedLine l))).map fixLine :=
      List.mem_map.mpr ⟨w, hw, rfl⟩
    rw [hfixed] at this
    exact absurd this (List.not_mem_nil _)
  · rw [if_neg hany] at hname
    exact absurd hname (by simp)

theorem processBlock_any_name {inner n : List Char} :
    (processBlock inner n).any (keyFlagLine ['n', 'a', 'm', 'e']) = true := by
  simp only [processBlock]
  by_cases hany :
      ((splitLinesL inner).filter (fun l => !(isDroppedLine l))).any
        (keyFlagLine ['n', 'a', 'm', 'e']) = true
  · obtain ⟨w, hw, hwf⟩ := List.any_eq_true.mp hany
    rw [if_pos hany]
    simp only [List.any_append, Bool.or_eq_true]
    left
    left
    right
    apply List.any_eq_true.mpr
    refine ⟨fixLine w, List.mem_map.mpr ⟨w, hw, rfl⟩, ?_⟩
    rw [keyFlagLine_fixLine (by decide) w]
    exact hwf
  · rw [if_neg hany]
    simp only [List.any_append, List.any_cons, Bool.or_eq_true]
    left
    left
    left
    left
    exact keyFlag_nameLine n

theorem processBlock_any_desc {inner n : List Char} :
    (processBlock inner n).any (keyFlagLine "description".data) = true := by
  simp only [processBlock]
  by_cases hany :
      ((splitLinesL inner).filter (fun l => !(isDroppedLine l))).any
        (keyFlagLine "description".data) = true
  · obtain ⟨w, hw, hwf⟩ := List.any_eq_true.mp hany
    rw [if_pos hany]
    simp only [List.any_append, Bool.or_eq_true]
    left
    left
    right
    apply List.any_eq_true.mpr
    refine ⟨fixLine w, List.mem_map.mpr ⟨w, hw, rfl⟩, ?_⟩
    rw [keyFlagLine_fixLine (by decide) w]
    exact hwf
  · rw [if_neg hany]
    simp only [List.any_append, List.any_cons, Bool.or_eq_true]
    left
    right
    left
    exact keyFlag_descLine n

theorem processBlock_any_model {inner n : List Char} :
    (processBlock inner n).any (keyFlagLine "model".data) = true := by
  simp only [processBlock]
  by_cases hany :
      ((splitLinesL inner).filter (fun l => !(isDroppedLine l))).any
        (keyFlagLine "model".data) = true
  · obtain ⟨w, hw, hwf⟩ := List.any_eq_true.mp hany
    rw [if_pos hany]
    simp only [List.any_append, Bool.or_eq_true]
    left
    left
    right
    apply List.any_eq_true.mpr
    refine ⟨fixLine w, List.mem_map.mpr ⟨w, hw, rfl⟩, ?_⟩
    rw [keyFlagLine_fixLine (by decide) w]
    exact hwf
  · rw [if_neg hany]
    simp only [List.any_append, List.any_cons, Bool.or_eq_true]
    right
    left
    exact keyFlag_modelLine

theorem processBlock_fix_id {inner n : List Char} (h3 : n.contains '"' = false)
    (h4 : n.contains aposChar = false) :
    ∀ l ∈ processBlock inner n, fixLine l = l := by
  intro l hl
  rcases processBlock_mem hl with ⟨l0, hl0, hfx⟩ | hx | hx | hx
  · rw [hfx]
    exact fixLine_idem l0
  · rw [hx]
    exact fixLine_nameLine h3 h4
  · rw [hx]
    exact fixLine_descLine n
  · rw [hx]
    exact fixLine_modelLine

theorem processBlock_fixpoint {inner n : List Char} (h3 : n.contains '"' = false)
    (h4 : n.contains aposChar = false) (hn1 : n.contains '\n' = false) :
    processBlock (joinLinesL (processBlock inner n)) n = processBlock inner n := by
  have hsplit : splitLinesL (joinLinesL (processBlock inner n)) = processBlock inner n :=
    splitLinesL_joinLinesL (processBlock_ne_nil inner n) (processBlock_no_nl hn1)
  have hfilter : (processBlock inner n).filter (fun l => !(isDroppedLine l)) =
      processBlock inner n := by
    apply List.filter_eq_self.mpr
    intro a ha
    simp [processBlock_not_dropped a ha]
  conv =>
    lhs
    rw [processBlock, hsplit, hfilter]
  rw [processBlock_any_name, processBlock_any_desc, processBlock_any_model]
  simp only [if_true]
  rw [List.map_congr_left (processBlock_fix_id h3 h4)]
  simp

theorem h3_of_firstLine {t : List Char}
    (h : (['-', '-', '-'] : List Char).isPrefixOf (firstLineOf t) = true) :
    (['-', '-', '-'] : List Char).isPrefixOf t = true := by
  apply List.isPrefixOf_iff_prefix.mpr
  exact (List.isPrefixOf_iff_prefix.mp h).trans (List.takeWhile_prefix _)

theorem mem_tail_splitLinesL_not_h3 {cs : List Char} (h : containsSeq closePat cs = false) :
    ∀ l ∈ (splitLinesL cs).tail, (['-', '-', '-'] : List Char).isPrefixOf l = false := by
  induction cs with
  | nil => simp [splitLinesL]
  | cons c t ih =>
    obtain ⟨hp, h2⟩ := containsSeq_cons_false h
    by_cases hc : c = '\n'
    · subst hc
      intro l hl
      simp only [splitLinesL, if_pos rfl, List.tail_cons] at hl
      obtain ⟨r, hr⟩ := head_splitLinesL t
      rw [hr] at hl
      rcases List.mem_cons.mp hl with hl | hl
      · subst hl
        cases hx : (['-', '-', '-'] : List Char).isPrefixOf (firstLineOf t) with
        | false => rfl
        | true =>
          exfalso
          have := h3_of_firstLine hx
          rw [show closePat = '\n' :: ['-', '-', '-'] from rfl] at hp
          simp [List.isPrefixOf, this] at hp
      · exact ih h2 l (by rw [hr]; exact hl)
    · intro l hl
      simp only [splitLinesL, if_neg hc] at hl
      cases hs : splitLinesL t with
      | nil => exact absurd hs (splitLinesL_ne_nil t)
      | cons h0 r0 =>
        rw [hs] at hl
        simp only [List.tail_cons] at hl
        exact ih h2 l (by rw [hs]; exact hl)

theorem parseFM_findClose {cs : List Char} {p : List Char × List Char}
    (h : parseFM cs = some p) : findClose (cs.drop 4) = some p := by
  unfold parseFM at h
  by_cases hc : cs.take 4 = ['-', '-', '-', '\n']
  · rw [if_pos hc] at h
    exact h
  · rw [if_neg hc] at h
    exact absurd h (by simp)

theorem inner_lines_not_h3 {content inner rest : List Char}
    (hp : parseFM content = some (inner, rest))
    (h1 : (['-', '-', '-'] : List Char).isPrefixOf (firstLineOf inner) = false) :
    ∀ l ∈ splitLinesL inner, (['-', '-', '-'] : List Char).isPrefixOf l = false := by
  intro l hl
  obtain ⟨r, hr⟩ := head_splitLinesL inner
  rw [hr] at hl
  rcases List.mem_cons.mp hl with hl | hl
  · rw [hl]
    exact h1
  · apply mem_tail_splitLinesL_not_h3 (findClose_noClose (parseFM_findClose hp)) l
    rw [hr]
    exact hl

theorem dollarSub_no_dollar {tpl : List Char} (m pre suf : List Char)
    (h : tpl.contains dollarChar = false) : dollarSub m pre suf tpl = tpl := by
  induction tpl with
  | nil => rfl
  | cons c t ih =>
    simp only [List.contains_cons, Bool.or_eq_false_iff, beq_eq_false_iff_ne] at h
    obtain ⟨h1, h2⟩ := h
    have hc : ¬c = dollarChar := fun hx => h1 hx.symm
    rw [dollarSub.eq_def]
    simp only [if_neg hc]
    rw [ih (by simpa using h2)]

theorem tpl_no_dollar {ls : List (List Char)} (hd : ∀ l ∈ ls, l.contains dollarChar = false) :
    ("---\n".data ++ joinLinesL ls ++ "\n---".data).contains dollarChar = false := by
  rw [contains_false_iff]
  intro hmem
  rcases List.mem_append.mp hmem with hm | hm
  · rcases List.mem_append.mp hm with hm | hm
    · exact absurd hm (by decide)
    · rcases mem_joinLinesL hm with hm | ⟨x, hx, hcm⟩
      · exact absurd hm (by decide)
      · exact contains_false_iff.mp (hd x hx) hcm
  · exact absurd hm (by decide)

theorem fixL_some_eq {content inner rest : List Char} (n : List Char)
    (hp : parseFM content = some (inner, rest))
    (hnd : ∀ l ∈ processBlock inner n, l.contains dollarChar = false) :
    fixFrontmatterFormatL content n =
      '-' :: '-' :: '-' :: '\n' ::
        (joinLinesL (processBlock inner n) ++ '\n' :: '-' :: '-' :: '-' :: rest) := by
  unfold fixFrontmatterFormatL
  rw [hp]
  simp only
  rw [dollarSub_no_dollar _ _ _ (tpl_no_dollar hnd)]
  show ("---\n".data ++ joinLinesL (processBlock inner n) ++ "\n---".data) ++ rest = _
  rw [List.append_assoc, List.append_assoc]
  rfl

theorem nameLine_contains {n : List Char} {a : Char} (h : n.contains a = false)
    (hl : a ∉ ['n', 'a', 'm', 'e', ':', ' ']) : (nameLine n).contains a = false := by
  rw [contains_false_iff]
  intro hmem
  rcases List.mem_append.mp hmem with hm | hm
  · exact hl hm
  · exact contains_false_iff.mp h hm

theorem descLine_contains {n : List Char} {a : Char} (h : n.contains a = false)
    (hl : a ∉ "description: Agent for ".data) : (descLine n).contains a = false := by
  rw [contains_false_iff]
  intro hmem
  rcases List.mem_append.mp hmem with hm | hm
  · exact hl hm
  · exact contains_false_iff.mp h hm

theorem LS0_no_nl {n : List Char} (hn1 : n.contains '\n' = false) :
    ∀ l ∈ [nameLine n, descLine n, modelLine], l.contains '\n' = false := by
  intro l hl
  rcases List.mem_cons.mp hl with hx | hl
  · rw [hx]; exact nameLine_contains hn1 (by decide)
  rcases List.mem_cons.mp hl with hx | hl
  · rw [hx]; exact descLine_contains hn1 (by decide)
  rcases List.mem_cons.mp hl with hx | hl
  · rw [hx]; decide
  · exact absurd hl (List.not_mem_nil l)

theorem LS0_no_dollar {n : List Char} (hn2 : n.contains dollarChar = false) :
    ∀ l ∈ [nameLine n, descLine n, modelLine], l.contains dollarChar = false := by
  intro l hl
  rcases List.mem_cons.mp hl with hx | hl
  · rw [hx]; exact nameLine_contains hn2 (by decide)
  rcases List.mem_cons.mp hl with hx | hl
  · rw [hx]; exact descLine_contains hn2 (by decide)
  rcases List.mem_cons.mp hl with hx | hl
  · rw [hx]; decide
  · exact absurd hl (List.not_mem_nil l)

theorem LS0_not_h3 (n : List Char) :
    ∀ l ∈ [nameLine n, descLine n, modelLine],
      (['-', '-', '-'] : List Char).isPrefixOf l = false := by
  intro l hl
  rcases List.mem_cons.mp hl with hx | hl
  · rw [hx]; simp [nameLine, List.isPrefixOf]
  rcases List.mem_cons.mp hl with hx | hl
  · rw [hx]; simp [descLine, List.isPrefixOf]
  rcases List.mem_cons.mp hl with hx | hl
  · rw [hx]; decide
  · exact absurd hl (List.not_mem_nil l)

theorem synth_shape (n content : List Char) :
    synthFM n ++ content =
      '-' :: '-' :: '-' :: '\n' ::
        (joinLinesL [nameLine n, descLine n, modelLine] ++
          '\n' :: '-' :: '-' :: '-' :: ('\n' :: '\n' :: content)) := by
  simp [synthFM, nameLine, descLine, modelLine, joinLinesL, List.append_assoc]

theorem parseFM_synth {n : List Char} (content : List Char) (hn1 : n.contains '\n' = false) :
    parseFM (synthFM n ++ content) =
      some (joinLinesL [nameLine n, descLine n, modelLine], '\n' :: '\n' :: content) := by
  rw [synth_shape]
  apply parseFM_reconstruct
  exact noClose_joinLinesL (by simp) (LS0_no_nl hn1) (LS0_not_h3 n)

theorem processBlock_LS0 {n : List Char} (h3 : n.contains '"' = false)
    (h4 : n.contains aposChar = false) (hn1 : n.contains '\n' = false) :
    processBlock (joinLinesL [nameLine n, descLine n, modelLine]) n =
      [nameLine n, descLine n, modelLine] := by
  have hsplit : splitLinesL (joinLinesL [nameLine n, descLine n, modelLine]) =
      [nameLine n, descLine n, modelLine] :=
    splitLinesL_joinLinesL (by simp) (LS0_no_nl hn1)
  conv =>
    lhs
    rw [processBlock, hsplit]
  have hfil : ([nameLine n, descLine n, modelLine].filter (fun l => !(isDroppedLine l))) =
      [nameLine n, descLine n, modelLine] := by
    apply List.filter_eq_self.mpr
    intro a ha
    rcases List.mem_cons.mp ha with hx | ha
    · rw [hx, isDropped_nameLine]; rfl
    rcases List.mem_cons.mp ha with hx | ha
    · rw [hx, isDropped_descLine]; rfl
    rcases List.mem_cons.mp ha with hx | ha
    · rw [hx, isDropped_modelLine]; rfl
    · exact absurd ha (List.not_mem_nil a)
  rw [hfil]
  have hfname : ([nameLine n, descLine n, modelLine].any (keyFlagLine ['n', 'a', 'm', 'e'])) =
      true := by
    simp only [List.any_cons, Bool.or_eq_true]
    left
    exact keyFlag_nameLine n
  have hfdesc : ([nameLine n, descLine n, modelLine].any (keyFlagLine "description".data)) =
      true := by
    simp only [List.any_cons, Bool.or_eq_true]
    right
    left
    exact keyFlag_descLine n
  have hfmodel : ([nameLine n, descLine n, modelLine].any (keyFlagLine "model".data)) = true := by
    simp only [List.any_cons, Bool.or_eq_true]
    right
    right
    left
    exact keyFlag_modelLine
  rw [hfname, hfdesc, hfmodel]
  simp only [if_true, List.map_cons, List.map_nil]
  rw [fixLine_nameLine h3 h4, fixLine_descLine, fixLine_modelLine]
  simp

theorem fixL_none_eq {content : List Char} (n : List Char) (hp : parseFM content = none) :
    fixFrontmatterFormatL content n = synthFM n ++ content := by
  unfold fixFrontmatterFormatL
  rw [hp]

theorem fix_master {content n : List Char}
    (hn1 : n.contains '\n' = false) (hn2 : n.contains dollarChar = false)
    (hn3 : n.contains '"' = false) (hn4 : n.contains aposChar = false)
    (hfm : ∀ inner rest, parseFM content = some (inner, rest) →
      inner.contains dollarChar = false ∧
      (['-', '-', '-'] : List Char).isPrefixOf (firstLineOf inner) = false) :
    ∃ ls rest2,
      fixFrontmatterFormatL content n =
        '-' :: '-' :: '-' :: '\n' :: (joinLinesL ls ++ '\n' :: '-' :: '-' :: '-' :: rest2) ∧
      parseFM (fixFrontmatterFormatL content n) = some (joinLinesL ls, rest2) ∧
      splitLinesL (joinLinesL ls) = ls ∧
      processBlock (joinLinesL ls) n = ls ∧
      (∀ l ∈ ls, l.contains dollarChar = false) ∧
      ls.any (keyFlagLine ['n', 'a', 'm', 'e']) = true ∧
      ls.any (keyFlagLine "description".data) = true ∧
      ls.any (keyFlagLine "model".data) = true ∧
      (∀ l ∈ ls, isDroppedLine l = false) := by
  cases hp : parseFM content with
  | none =>
    refine ⟨[nameLine n, descLine n, modelLine], '\n' :: '\n' :: content, ?_, ?_, ?_, ?_, ?_,
      ?_, ?_, ?_, ?_⟩
    · rw [fixL_none_eq n hp]
      exact synth_shape n content
    · rw [fixL_none_eq n hp]
      exact parseFM_synth content hn1
    · exact splitLinesL_joinLinesL (by simp) (LS0_no_nl hn1)
    · exact processBlock_LS0 hn3 hn4 hn1
    · exact LS0_no_dollar hn2
    · simp only [List.any_cons, Bool.or_eq_true]
      left
      exact keyFlag_nameLine n
    · simp only [List.any_cons, Bool.or_eq_true]
      right
      left
      exact keyFlag_descLine n
    · simp only [List.any_cons, Bool.or_eq_true]
      right
      right
      left
      exact keyFlag_modelLine
    · intro l hl
      rcases List.mem_cons.mp hl with hx | hl
      · rw [hx]; exact isDropped_nameLine n
      rcases List.mem_cons.mp hl with hx | hl
      · rw [hx]; exact isDropped_descLine n
      rcases List.mem_cons.mp hl with hx | hl
      · rw [hx]; exact isDropped_modelLine
      · exact absurd hl (List.not_mem_nil l)
  | some p =>
    obtain ⟨inner, rest⟩ := p
    obtain ⟨hd, hfirst⟩ := hfm inner rest hp
    have hall3 := inner_lines_not_h3 hp hfirst
    have hPBd := processBlock_no_dollar hd hn2
    refine ⟨processBlock inner n, rest, ?_, ?_, ?_, ?_, ?_, ?_, ?_, ?_, ?_⟩
    · exact fixL_some_eq n hp hPBd
    · rw [fixL_some_eq n hp hPBd]
      apply parseFM_reconstruct
      exact noClose_joinLinesL (processBlock_ne_nil inner n) (processBlock_no_nl hn1)
        (processBlock_not_h3 hall3)
    · exact splitLinesL_joinLinesL (processBlock_ne_nil inner n) (processBlock_no_nl hn1)
    · exact processBlock_fixpoint hn3 hn4 hn1
    · exact hPBd
    · exact processBlock_any_name
    · exact processBlock_any_desc
    · exact processBlock_any_model
    · exact processBlock_not_dropped

/-! ## Claims C2 and C3 -/

theorem nameOKB_elim {n : String} (h : nameOKB n = true) :
    n.data.contains '\n' = false ∧ n.data.contains dollarChar = false ∧
    n.data.contains '"' = false ∧ n.data.contains aposChar = false := by
  simp only [nameOKB, Bool.and_eq_true, Bool.not_eq_true'] at h
  exact ⟨h.1.1.1, h.1.1.2, h.1.2, h.2⟩

theorem fmOKB_elim {content : String} (h : fmOKB content = true) :
    ∀ inner rest, parseFM content.data = some (inner, rest) →
      inner.contains dollarChar = false ∧
      (['-', '-', '-'] : List Char).isPrefixOf (firstLineOf inner) = false := by
  intro inner rest hp
  unfold fmOKB at h
  rw [hp] at h
  simp only [Bool.and_eq_true, Bool.not_eq_true'] at h
  exact h

/-- Claim C2 (counterexample): `fixFrontmatterFormat` is not
idempotent: on a text whose header block itself opens with a line of
three hyphens, the second application parses a different header block
and inserts a second description and model. -/
theorem C2_counterexample :
    fixFrontmatterFormat (fixFrontmatterFormat "---\n---\nx\n---" "agent") "agent" ≠
      fixFrontmatterFormat "---\n---\nx\n---" "agent" := by
  decide

/-- Claim C2 (amended): `fixFrontmatterFormat` is idempotent for
every input whose base name holds no newline, dollar or quote
characters and whose header block, when one matches, holds no dollar
character and does not open with a line beginning in three hyphens. -/
theorem C2_fixFrontmatterFormat_idem (content agentName : String)
    (h1 : nameOKB agentName = true) (h2 : fmOKB content = true) :
    fixFrontmatterFormat (fixFrontmatterFormat content agentName) agentName =
      fixFrontmatterFormat content agentName := by
  obtain ⟨hn1, hn2, hn3, hn4⟩ := nameOKB_elim h1
  obtain ⟨ls, rest2, hshape, hparse, hsplit, hfix, hdl, hf1, hf2, hf3, hnd⟩ :=
    fix_master hn1 hn2 hn3 hn4 (fmOKB_elim h2)
  show String.mk (fixFrontmatterFormatL (fixFrontmatterFormatL content.data agentName.data)
    agentName.data) = String.mk (fixFrontmatterFormatL content.data agentName.data)
  congr 1
  rw [fixL_some_eq agentName.data hparse (by rw [hfix]; exact hdl), hfix]
  exact hshape.symm

/-- Claim C2 (witness): the amended idempotence theorem applied to a
concrete agent file. -/
theorem C2_witness :
    nameOKB "reviewer" = true ∧ fmOKB "---\nname: x\n---\nbody" = true ∧
    fixFrontmatterFormat (fixFrontmatterFormat "---\nname: x\n---\nbody" "reviewer")
        "reviewer" =
      fixFrontmatterFormat "---\nname: x\n---\nbody" "reviewer" :=
  ⟨by decide, by decide,
    C2_fixFrontmatterFormat_idem "---\nname: x\n---\nbody" "reviewer" (by decide) (by decide)⟩

/-- Claim C3 (counterexample): a header block with two name lines
keeps both, so the normalized header does not contain exactly one
name line. -/
theorem C3_counterexample :
    ¬((headerLines (fixFrontmatterFormat "---\nname: a\nname: b\n---\nbody" "agent")).countP
        (keyFlagLine "name".data) = 1) := by
  decide

/-- Claim C3 (amended): after `fixFrontmatterFormat` the header block
contains at least one name line, at least one description line and at
least one model line, and no tool-permission line survives, provided
the base name holds no newline, dollar or quote characters and the
matched header block, if any, holds no dollar character and does not
open with a line of three hyphens. -/
theorem C3_fixFrontmatterFormat_header_keys (content agentName : String)
    (h1 : nameOKB agentName = true) (h2 : fmOKB content = true) :
    1 ≤ (headerLines (fixFrontmatterFormat content agentName)).countP
        (keyFlagLine "name".data) ∧
    1 ≤ (headerLines (fixFrontmatterFormat content agentName)).countP
        (keyFlagLine "description".data) ∧
    1 ≤ (headerLines (fixFrontmatterFormat content agentName)).countP
        (keyFlagLine "model".data) ∧
    (headerLines (fixFrontmatterFormat content agentName)).countP isDroppedLine = 0 := by
  obtain ⟨hn1, hn2, hn3, hn4⟩ := nameOKB_elim h1
  obtain ⟨ls, rest2, hshape, hparse, hsplit, hfix, hdl, hf1, hf2, hf3, hnd⟩ :=
    fix_master hn1 hn2 hn3 hn4 (fmOKB_elim h2)
  have hhl : headerLines (fixFrontmatterFormat content agentName) = ls := by
    unfold headerLines
    have hdata : (fixFrontmatterFormat content agentName).data =
        fixFrontmatterFormatL content.data agentName.data := rfl
    rw [hdata, hparse]
    exact hsplit
  rw [hhl]
  refine ⟨?_, ?_, ?_, ?_⟩
  · have := List.any_eq_true.mp hf1
    obtain ⟨a, ha, hpa⟩ := this
    exact Nat.succ_le_of_lt (List.countP_pos_iff.mpr ⟨a, ha, hpa⟩)
  · have := List.any_eq_true.mp hf2
    obtain ⟨a, ha, hpa⟩ := this
    exact Nat.succ_le_of_lt (List.countP_pos_iff.mpr ⟨a, ha, hpa⟩)
  · have := List.any_eq_true.mp hf3
    obtain ⟨a, ha, hpa⟩ := this
    exact Nat.succ_le_of_lt (List.countP_pos_iff.mpr ⟨a, ha, hpa⟩)
  · exact List.countP_eq_zero.mpr (fun a ha => by simp [hnd a ha])

/-- Claim C3 (witness): the amended header-keys theorem applied to a
concrete agent file. -/
theorem C3_witness :
    nameOKB "agent" = true ∧ fmOKB "---\ntools: x\nname: \"n\"\n---\nbody" = true ∧
    1 ≤ (headerLines (fixFrontmatterFormat "---\ntools: x\nname: \"n\"\n---\nbody"
        "agent")).countP (keyFlagLine "name".data) ∧
    1 ≤ (headerLines (fixFrontmatterFormat "---\ntools: x\nname: \"n\"\n---\nbody"
        "agent")).countP (keyFlagLine "description".data) ∧
    1 ≤ (headerLines (fixFrontmatterFormat "---\ntools: x\nname: \"n\"\n---\nbody"
        "agent")).countP (keyFlagLine "model".data) ∧
    (headerLines (fixFrontmatterFormat "---\ntools: x\nname: \"n\"\n---\nbody"
        "agent")).countP isDroppedLine = 0 :=
  ⟨by decide, by decide,
    (C3_fixFrontmatterFormat_header_keys "---\ntools: x\nname: \"n\"\n---\nbody" "agent"
      (by decide) (by decide)).1,
    (C3_fixFrontmatterFormat_header_keys "---\ntools: x\nname: \"n\"\n---\nbody" "agent"
      (by decide) (by decide)).2.1,
    (C3_fixFrontmatterFormat_header_keys "---\ntools: x\nname: \"n\"\n---\nbody" "agent"
      (by decide) (by decide)).2.2.1,
    (C3_fixFrontmatterFormat_header_keys "---\ntools: x\nname: \"n\"\n---\nbody" "agent"
      (by decide) (by decide)).2.2.2⟩

/-! ## Claim C4 -/

theorem containsSeq_of_isPrefixOf {pat l : List Char} (h : pat.isPrefixOf l = true) :
    containsSeq pat l = true := by
  cases l with
  | nil =>
    cases pat with
    | nil => rfl
    | cons p t => simp [List.isPrefixOf] at h
  | cons c t =>
    simp [containsSeq, h]

/-- Claim C4: on input with no header-block delimiters at all (no
three consecutive hyphens anywhere), `fixFrontmatterFormat` with base
name reviewer prepends a synthesized header with the reviewer name, a
generated description and the sonnet model, and keeps the original
text unchanged after it. -/
theorem C4_synthesized_header (content : String)
    (h : containsSeq "---".data content.data = false) :
    fixFrontmatterFormat content "reviewer" =
      "---\nname: reviewer\ndescription: Agent for reviewer\nmodel: sonnet\n---\n\n" ++
        content := by
  have hp : parseFM content.data = none := by
    unfold parseFM
    by_cases hc : content.data.take 4 = ['-', '-', '-', '\n']
    · exfalso
      have h4p : (['-', '-', '-', '\n'] : List Char).isPrefixOf content.data = true :=
        isPrefixOf_of_take hc
      have h3p : (['-', '-', '-'] : List Char).isPrefixOf content.data = true := by
        apply List.isPrefixOf_iff_prefix.mpr
        exact List.IsPrefix.trans ⟨['\n'], rfl⟩ (List.isPrefixOf_iff_prefix.mp h4p)
      rw [containsSeq_of_isPrefixOf h3p] at h
      exact absurd h (by simp)
    · exact if_neg hc
  show String.mk (fixFrontmatterFormatL content.data "reviewer".data) = _
  rw [fixL_none_eq _ hp]
  show String.mk (synthFM "reviewer".data ++ content.data) =
    String.mk ("---\nname: reviewer\ndescription: Agent for reviewer\nmodel: sonnet\n---\n\n".data
      ++ content.data)
  congr 1

/-- Claim C4 (witness): the synthesis theorem applied to a concrete
body. -/
theorem C4_witness :
    containsSeq "---".data "hello world".data = false ∧
    fixFrontmatterFormat "hello world" "reviewer" =
      "---\nname: reviewer\ndescription: Agent for reviewer\nmodel: sonnet\n---\n\n" ++
        "hello world" :=
  ⟨by decide, C4_synthesized_header "hello world" (by decide)⟩

/-! ## Claim C1 -/

theorem strLen_append (a b : String) :
    (a ++ b).data.length = a.data.length + b.data.length := by
  show (a.data ++ b.data).length = _
  exact List.length_append a.data b.data

theorem flatten_replicate (n : Nat) (a : Char) :
    (List.replicate n ([a] : List Char)).flatten = List.replicate n a := by
  induction n with
  | zero => rfl
  | succ k ih => simp [List.replicate, List.flatten, ih]

/-- The serialized 8000-character description weighs 8002 characters
(the two added quotes); no character of it needs escaping. -/
theorem jsonStr_replicate_len :
    (jsonStr ⟨List.replicate 8000 'a'⟩).data.length = 8002 := by
  show ('"' :: (List.map jsonEscapeChar (List.replicate 8000 'a')).flatten ++ ['"']).length = 8002
  rw [List.map_replicate]
  have ha : jsonEscapeChar 'a' = ['a'] := by decide
  rw [ha, flatten_replicate]
  simp only [List.length_cons, List.length_append, List.length_replicate]
  decide

/-- The exact append shape of the summary of `overflowPkg`, with the
long description kept as an opaque `jsonStr` leaf. -/
theorem overflow_summary_shape : mkPkgSummary overflowPkg =
    ("\x7b\n" ++
      ((("  " ++ ("\"name\": " ++ jsonStr "x")) ++ ",\n") ++
        ((("  " ++ ("\"description\": " ++ jsonStr ⟨List.replicate 8000 'a'⟩)) ++ ",\n") ++
          ((("  " ++ ("\"dependencies\": " ++ pkgArr [])) ++ ",\n") ++
            ("  " ++ ("\"devDependencies\": " ++ pkgArr [])))))) ++ "\n\x7d" := rfl

theorem overflow_summary_len : (mkPkgSummary overflowPkg).data.length = 8085 := by
  rw [overflow_summary_shape]
  repeat rw [strLen_append]
  rw [jsonStr_replicate_len]
  decide

/-- The package.json step on a workspace whose file parses, taken
under budget: the summary section is appended whole and its length is
added to the running total. -/
theorem stPackage_hit (ws : Workspace) (st : DigestSt) (p : PackageJson)
    (hw : ws.packageJson = some (some p)) (h : st.total < 8000) :
    stPackage ws st =
      ⟨st.parts ++ ["## package.json\n" ++ mkPkgSummary p],
       st.total + (mkPkgSummary p).data.length, st.reads ++ ["package.json"]⟩ := by
  unfold stPackage
  simp only [hw]
  rw [if_pos h]

theorem stPyproject_none (ws : Workspace) (st : DigestSt) (h : ws.pyprojectToml = none) :
    stPyproject ws st = st := by
  unfold stPyproject
  rw [h]

theorem stStructure_over (ws : Workspace) (st : DigestSt) (h : ¬ st.total < 8000) :
    stStructure ws st = st := by
  unfold stStructure
  rw [if_neg h]

/-- On the overflow workspace the digest runs exactly one step: the
package.json summary enters whole, the recorded total is 8085, and
the structure step is then skipped by the budget guard. -/
theorem digest_state_overflow :
    digestState overflowWorkspace =
      ⟨["## package.json\n" ++ mkPkgSummary overflowPkg], 8085, ["package.json"]⟩ := by
  have h12 : stReadme overflowWorkspace (stClaude overflowWorkspace digestInit) = digestInit := rfl
  have h3 := stPackage_hit overflowWorkspace digestInit overflowPkg rfl (by decide)
  rw [show digestInit.parts = [] from rfl, show digestInit.total = 0 from rfl,
      show digestInit.reads = [] from rfl, List.nil_append, List.nil_append,
      Nat.zero_add, overflow_summary_len] at h3
  unfold digestState
  rw [h12, h3, stPyproject_none overflowWorkspace _ rfl,
      stStructure_over _ _ (by decide)]

/-- Claim C1: the digest budget is violated. `getProjectContext`
counts the package.json summary against the 8000-character budget but
never truncates it, so a large parsed description makes the returned
digest 8101 characters long, against the stated invariant and the
limit in the source comment. -/
theorem C1_digest_exceeds_budget :
    8000 < (getProjectContext overflowWorkspace).data.length := by
  have h : getProjectContext overflowWorkspace = "## package.json\n" ++ mkPkgSummary overflowPkg := by
    unfold getProjectContext
    rw [digest_state_overflow]
    rfl
  rw [h, strLen_append, overflow_summary_len]
  decide

/-! ## Claim C5 -/

theorem strTake_len_le (s : String) (n : Nat) : (strTake s n).data.length ≤ n := by
  show (s.data.take n).length ≤ n
  rw [List.length_take]
  exact Nat.min_le_left _ _

/-- The CLAUDE.md step under budget: the file is read exactly when it
exists, and the truncation keeps the total growth at 2000. -/
theorem stClaude_char (ws : Workspace) (st : DigestSt) (h : st.total < 8000) :
    (stClaude ws st).reads = st.reads ++ (if ws.claudeMd.isSome then ["CLAUDE.md"] else []) ∧
    (stClaude ws st).total ≤ st.total + 2000 := by
  cases hc : ws.claudeMd with
  | none =>
    refine ⟨?_, ?_⟩ <;> simp [stClaude, hc]
  | some c =>
    refine ⟨?_, ?_⟩ <;> simp [stClaude, hc, h]
    exact strTake_len_le c 2000

/-- The README.md step under budget, with the same bound. -/
theorem stReadme_char (ws : Workspace) (st : DigestSt) (h : st.total < 8000) :
    (stReadme ws st).reads = st.reads ++ (if ws.readmeMd.isSome then ["README.md"] else []) ∧
    (stReadme ws st).total ≤ st.total + 2000 := by
  cases hc : ws.readmeMd with
  | none =>
    refine ⟨?_, ?_⟩ <;> simp [stReadme, hc]
  | some c =>
    refine ⟨?_, ?_⟩ <;> simp [stReadme, hc, h]
    calc (strTake c (min 2000 (8000 - st.total))).data.length
        ≤ min 2000 (8000 - st.total) := strTake_len_le _ _
      _ ≤ 2000 := Nat.min_le_left _ _

/-- The package.json step under budget reads the file whenever it
exists, whether or not it parses. -/
theorem stPackage_reads (ws : Workspace) (st : DigestSt) (h : st.total < 8000) :
    (stPackage ws st).reads = st.reads ++ (if ws.packageJson.isSome then ["package.json"] else []) := by
  cases hc : ws.packageJson with
  | none => simp [stPackage, hc]
  | some pr =>
    cases pr with
    | none => simp [stPackage, hc, h]
    | some p => simp [stPackage, hc, h]

/-- The pyproject.toml step under budget reads the file whenever it
exists. -/
theorem stPyproject_reads (ws : Workspace) (st : DigestSt) (h : st.total < 8000) :
    (stPyproject ws st).reads = st.reads ++ (if ws.pyprojectToml.isSome then ["pyproject.toml"] else []) := by
  cases hc : ws.pyprojectToml with
  | none => simp [stPyproject, hc]
  | some c => simp [stPyproject, hc, h]

/-- The structure step reads no file. -/
theorem stStructure_reads (ws : Workspace) (st : DigestSt) :
    (stStructure ws st).reads = st.reads := by
  unfold stStructure
  split <;> rfl

/-- Under the one guard that can actually bind (the budget before
the pyproject step), the digest reads exactly the four priority files
that exist; requirements.txt is never among them. -/
theorem digestReads_char (ws : Workspace)
    (h : (stPackage ws (stReadme ws (stClaude ws digestInit))).total < 8000) :
    digestReads ws =
      (if ws.claudeMd.isSome then ["CLAUDE.md"] else []) ++
      (if ws.readmeMd.isSome then ["README.md"] else []) ++
      (if ws.packageJson.isSome then ["package.json"] else []) ++
      (if ws.pyprojectToml.isSome then ["pyproject.toml"] else []) := by
  have h0 : digestInit.total < 8000 := by decide
  have hc := stClaude_char ws digestInit h0
  have h1 : (stClaude ws digestInit).total < 8000 :=
    Nat.lt_of_le_of_lt hc.2 (by decide)
  have hr := stReadme_char ws (stClaude ws digestInit) h1
  have h2 : (stReadme ws (stClaude ws digestInit)).total < 8000 :=
    Nat.lt_of_le_of_lt (Nat.le_trans hr.2 (Nat.add_le_add_right hc.2 2000)) (by decide)
  unfold digestReads digestState
  rw [stStructure_reads, stPyproject_reads _ _ h, stPackage_reads _ _ h2, hr.1, hc.1,
      show digestInit.reads = [] from rfl, List.nil_append]

/-- Claim C5 (counterexample): on a workspace holding only
requirements.txt, getReadableFiles lists requirements.txt but the
digest never reads it, so the two file sets differ. -/
theorem C5_counterexample :
    "requirements.txt" ∈ getReadableFiles ⟨none, none, none, none, true, FsEntries.nil⟩ ∧
    "requirements.txt" ∉ digestReads ⟨none, none, none, none, true, FsEntries.nil⟩ := by
  decide

/-- Claim C5 (amended): when the workspace has no requirements.txt
and the running total is still under budget before the pyproject
step (the only read guard that can bind, since the earlier stages
keep the total at most 4000), getReadableFiles and the digest reads
hold the same file names. -/
theorem C5_reads_match (ws : Workspace) (hreq : ws.requirementsTxt = false)
    (h : (stPackage ws (stReadme ws (stClaude ws digestInit))).total < 8000) :
    ∀ f, f ∈ getReadableFiles ws ↔ f ∈ digestReads ws := by
  intro f
  rw [digestReads_char ws h]
  unfold getReadableFiles
  rw [hreq]
  simp only [List.mem_append]
  constructor
  · rintro ((((h | h) | h) | h) | h)
    · exact Or.inl (Or.inl (Or.inr h))
    · exact Or.inl (Or.inl (Or.inl h))
    · exact Or.inl (Or.inr h)
    · exact Or.inr h
    · rw [if_neg (show ¬ (false = true) by decide)] at h
      exact absurd h (List.not_mem_nil f)
  · rintro (((h | h) | h) | h)
    · exact Or.inl (Or.inl (Or.inl (Or.inr h)))
    · exact Or.inl (Or.inl (Or.inl (Or.inl h)))
    · exact Or.inl (Or.inl (Or.inr h))
    · exact Or.inl (Or.inr h)

/-- Claim C5 (witness): the amended theorem applied to a workspace
holding all four priority files. -/
theorem C5_witness :
    c5ws.requirementsTxt = false ∧
    (stPackage c5ws (stReadme c5ws (stClaude c5ws digestInit))).total < 8000 ∧
    ("pyproject.toml" ∈ getReadableFiles c5ws ↔ "pyproject.toml" ∈ digestReads c5ws) :=
  ⟨rfl, by decide, C5_reads_match c5ws rfl (by decide) "pyproject.toml"⟩

/-! ## Claim C7 -/

/-! The mutual walk invariant: a returned file's path extends the
accumulated segments by the traversed directories and the file name;
the traversed directories stay within the depth budget and are
neither skip-listed nor hidden. The depth hypothesis mirrors the
reachable call states: the walk only recurses while `d + 1 ≤ 5`. -/
mutual
theorem findMdEntry_paths (e : FsEntry) (segs : List String) (d : Nat) (f : MarkdownFile)
    (hdep : d ≤ 5) (hf : f ∈ findMdEntry e segs d) :
    ∃ ds fn, f.pathSegs = segs ++ (ds ++ [fn]) ∧ ds.length + d ≤ 5 ∧
      ∀ x ∈ ds, x ∉ mdSkipDirs ∧ strStartsWith x "." = false := by
  cases e with
  | file n c =>
    unfold findMdEntry at hf
    by_cases hmd : strEndsWith n ".md" = true
    · rw [if_pos hmd] at hf
      have hfe : f = ⟨n, segs ++ [n], c, (parseMarkdown c).1, (parseMarkdown c).2⟩ := by
        cases hf with
        | head => rfl
        | tail _ h => cases h
      refine ⟨[], n, ?_, ?_, ?_⟩
      · rw [hfe]
        rfl
      · simp only [List.length_nil]
        omega
      · intro x hx; cases hx
    · rw [if_neg hmd] at hf; cases hf
  | dir n ch =>
    unfold findMdEntry at hf
    by_cases hskip : (n ∈ mdSkipDirs ∨ strStartsWith n "." = true)
    · rw [if_pos hskip] at hf; cases hf
    · rw [if_neg hskip] at hf
      by_cases hd : d + 1 > 5
      · rw [if_pos hd] at hf; cases hf
      · rw [if_neg hd] at hf
        obtain ⟨ds, fn, hp, hlen, hok⟩ :=
          findMdEntries_paths ch (segs ++ [n]) (d + 1) f (by omega) hf
        refine ⟨n :: ds, fn, ?_, ?_, ?_⟩
        · rw [hp, List.append_assoc]
          rfl
        · simp only [List.length_cons]
          omega
        · intro x hx
          cases hx with
          | head =>
            constructor
            · intro hmem; exact hskip (Or.inl hmem)
            · cases hb : strStartsWith n "." with
              | false => rfl
              | true => exact absurd (Or.inr hb) hskip
          | tail _ h => exact hok x h
theorem findMdEntries_paths (es : FsEntries) (segs : List String) (d : Nat) (f : MarkdownFile)
    (hdep : d ≤ 5) (hf : f ∈ findMdEntries es segs d) :
    ∃ ds fn, f.pathSegs = segs ++ (ds ++ [fn]) ∧ ds.length + d ≤ 5 ∧
      ∀ x ∈ ds, x ∉ mdSkipDirs ∧ strStartsWith x "." = false := by
  cases es with
  | nil => cases hf
  | cons e rest =>
    unfold findMdEntries at hf
    cases List.mem_append.mp hf with
    | inl h => exact findMdEntry_paths e segs d f hdep h
    | inr h => exact findMdEntries_paths rest segs d f hdep h
end

/-- Claim C7: every file the scan returns lies at most 5 directories
below the scan root, and none of the directories on its path is
skip-listed (node_modules, .git, dist, out, build, .claude) or starts
with a dot. -/
theorem C7_scan_depth_and_skips (root : FsEntries) (f : MarkdownFile)
    (hf : f ∈ scanMarkdownFiles root) :
    ∃ ds fn, f.pathSegs = ds ++ [fn] ∧ ds.length ≤ 5 ∧
      ∀ x ∈ ds, x ∉ mdSkipDirs ∧ strStartsWith x "." = false := by
  obtain ⟨ds, fn, hp, hlen, hok⟩ := findMdEntries_paths root [] 0 f (by omega) hf
  refine ⟨ds, fn, ?_, by omega, hok⟩
  rw [hp, List.nil_append]

/-- Claim C7 (witness): the scan theorem applied to a one-directory
tree and the file it returns. -/
theorem C7_witness :
    (⟨"a.md", ["docs", "a.md"], "# A\n\nAlpha.", some "A", some "Alpha."⟩ : MarkdownFile) ∈
        scanMarkdownFiles
          (fsList [FsEntry.dir "docs" (fsList [FsEntry.file "a.md" "# A\n\nAlpha."])]) ∧
    ∃ ds fn, (["docs", "a.md"] : List String) = ds ++ [fn] ∧ ds.length ≤ 5 ∧
      ∀ x ∈ ds, x ∉ mdSkipDirs ∧ strStartsWith x "." = false :=
  ⟨by decide,
   C7_scan_depth_and_skips
     (fsList [FsEntry.dir "docs" (fsList [FsEntry.file "a.md" "# A\n\nAlpha."])])
     ⟨"a.md", ["docs", "a.md"], "# A\n\nAlpha.", some "A", some "Alpha."⟩ (by decide)⟩

/-! ## Claim C9 -/

theorem firstDescCandidate_cons (l : List Char) (ls : List (List Char)) :
    firstDescCandidate (l :: ls) =
      if (!(jsTrimL l).isEmpty && !((jsTrimL l).head? = some '#')) = true
      then some ((jsTrimL l).take 200)
      else firstDescCandidate ls := by
  unfold firstDescCandidate
  rw [List.map_cons]
  cases hp : (!(jsTrimL l).isEmpty && !((jsTrimL l).head? = some '#')) with
  | true => simp [List.find?, hp]
  | false => simp [List.find?, hp]

/-- Inside a region the scan does nothing but look for the closing
delimiter: it continues after it, or dies at the end of the file. -/
theorem descScan_true_eq (ls : List (List Char)) :
    descScan true ls =
      match regionClose ls with
      | some r => descScan false r
      | none => none := by
  induction ls with
  | nil => rfl
  | cons l rest ih =>
    by_cases hc : jsTrimL l = ['-', '-', '-']
    · simp [descScan, regionClose, hc]
    · simp [descScan, regionClose, hc]
      exact ih

theorem outsideRegions_cons_open {l : List Char} (rest : List (List Char))
    (hc : jsTrimL l = ['-', '-', '-']) :
    outsideRegions (l :: rest) =
      match regionClose rest with
      | some r => outsideRegions r
      | none => [] := by
  rw [outsideRegions]
  rw [if_pos hc]
  cases hrc : regionClose rest with
  | none => simp only [hrc]
  | some r => simp only [hrc]

theorem outsideRegions_cons_keep {l : List Char} (rest : List (List Char))
    (hc : ¬ jsTrimL l = ['-', '-', '-']) :
    outsideRegions (l :: rest) = l :: outsideRegions rest := by
  rw [outsideRegions]
  rw [if_neg hc]

theorem outsideRegions_nil : outsideRegions [] = [] := by
  rw [outsideRegions]

/-- The description loop, started outside a region, returns the first
non-empty non-heading trimmed line among the lines outside every
delimited region; strong induction on the number of lines carries the
scan over each skipped region. -/
theorem descScan_false_eq_aux :
    ∀ n ls, List.length ls ≤ n →
      descScan false ls = firstDescCandidate (outsideRegions ls) := by
  intro n
  induction n with
  | zero =>
    intro ls h
    have : ls = [] := List.eq_nil_of_length_eq_zero (Nat.le_zero.mp h)
    subst this
    rw [outsideRegions_nil]
    rfl
  | succ k ih =>
    intro ls h
    match ls with
    | [] => rw [outsideRegions_nil]; rfl
    | l :: rest =>
      have hr : rest.length ≤ k := by
        simp only [List.length_cons] at h
        omega
      by_cases he : (jsTrimL l).isEmpty = true
      · have hc : ¬ jsTrimL l = ['-', '-', '-'] := by
          intro hx; rw [hx] at he; simp at he
        rw [outsideRegions_cons_keep rest hc, firstDescCandidate_cons]
        rw [if_neg (by simp [he])]
        have : descScan false (l :: rest) = descScan false rest := by
          simp [descScan, he]
        rw [this]
        exact ih rest hr
      · by_cases hh : (jsTrimL l).head? = some '#'
        · have hc : ¬ jsTrimL l = ['-', '-', '-'] := by
            intro hx; rw [hx] at hh; simp at hh
          rw [outsideRegions_cons_keep rest hc, firstDescCandidate_cons]
          rw [if_neg (by simp [hh])]
          have : descScan false (l :: rest) = descScan false rest := by
            simp [descScan, he, hh]
          rw [this]
          exact ih rest hr
        · by_cases hc : jsTrimL l = ['-', '-', '-']
          · have hstep : descScan false (l :: rest) = descScan true rest := by
              simp [descScan, he, hh, hc]
            rw [hstep, descScan_true_eq, outsideRegions_cons_open rest hc]
            cases hrc : regionClose rest with
            | none => rfl
            | some r =>
              have : r.length ≤ k := by
                have := regionClose_length hrc
                omega
              exact ih r this
          · have hstep : descScan false (l :: rest) = some ((jsTrimL l).take 200) := by
              simp [descScan, he, hh, hc]
            rw [hstep, outsideRegions_cons_keep rest hc, firstDescCandidate_cons]
            rw [if_pos (by simp [he, hh])]

theorem descScan_false_eq (ls : List (List Char)) :
    descScan false ls = firstDescCandidate (outsideRegions ls) :=
  descScan_false_eq_aux ls.length ls (Nat.le_refl _)

/-- Claim C9 (counterexample): on a file whose delimited region sits
below the level-1 heading rather than at the very top, the code still
skips the region and reports the line after it, while the claim
reading keeps scanning the lines as they stand and reports the
delimiter line itself as the description. -/
theorem C9_counterexample :
    parseMarkdownL "# H\n---\nhidden\n---\nAfter".data ≠
      parseMarkdownClaim "# H\n---\nhidden\n---\nAfter".data := by
  decide

/-- Claim C9 (amended): the description parseMarkdown extracts is the
first non-empty non-heading trimmed line lying outside every
three-hyphen delimited region of the file, truncated to 200
characters, not only outside a header block at the very top; the
title is the multiline regex match of the source. -/
theorem C9_parseMarkdown_characterization (cs : List Char) :
    parseMarkdownL cs =
      ((jsTitleMatch cs).map jsTrimL,
       firstDescCandidate (outsideRegions (splitLinesL cs))) := by
  unfold parseMarkdownL descLoop
  rw [descScan_false_eq]

/-! ## Claims C6 and C10 -/

theorem strAppend_assoc (a b c : String) : a ++ b ++ c = a ++ (b ++ c) := by
  apply String.ext
  show (a.data ++ b.data) ++ c.data = a.data ++ (b.data ++ c.data)
  exact List.append_assoc _ _ _

theorem strAppend_nil (a : String) : a ++ "" = a := by
  apply String.ext
  show a.data ++ [] = a.data
  exact List.append_nil _

theorem execStep_settled {timeoutMs : Nat} {st : ExecSt} {e : ExecEvent}
    {r : ClaudeResponse} (h : st.settled = some r) :
    (execStep timeoutMs st e).settled = some r := by
  cases e with
  | stdoutData s => simpa [execStep] using h
  | stderrData s => simpa [execStep] using h
  | timeoutFired =>
    by_cases hc : st.timerCleared = true
    · simpa [execStep, hc] using h
    · simp only [execStep, hc, Bool.false_eq_true, if_false, resolveOnce, h]
      simp [h]
  | closed code =>
    by_cases hc : code = some 0 <;> simp [execStep, resolveOnce, hc, h]
  | procError m => simp [execStep, resolveOnce, h]

theorem execRun_keeps_settled {timeoutMs : Nat} :
    ∀ (u : List ExecEvent) (st : ExecSt) (r : ClaudeResponse), st.settled = some r →
      (u.foldl (execStep timeoutMs) st).settled = some r := by
  intro u
  induction u with
  | nil => intro st r h; exact h
  | cons e u2 ih =>
    intro st r h
    rw [List.foldl_cons]
    exact ih _ r (execStep_settled h)

theorem execRun_data {timeoutMs : Nat} :
    ∀ (pre : List ExecEvent) (st : ExecSt), (∀ e ∈ pre, isDataEvent e = true) →
      st.settled = none → st.timerCleared = false →
      pre.foldl (execStep timeoutMs) st =
        ⟨none, st.out ++ stdoutOf pre, st.err ++ stderrOf pre, false⟩ := by
  intro pre
  induction pre with
  | nil =>
    intro st hall hs ht
    obtain ⟨s1, s2, s3, s4⟩ := st
    simp only at hs ht
    subst hs; subst ht
    rw [List.foldl_nil]
    simp [stdoutOf, stderrOf, strAppend_nil]
  | cons e pre2 ih =>
    intro st hall hs ht
    rw [List.foldl_cons]
    cases e with
    | stdoutData s =>
      rw [ih _ (fun x hx => hall x (List.mem_cons_of_mem _ hx)) (by simpa [execStep] using hs)
        (by simpa [execStep] using ht)]
      simp [execStep, stdoutOf, stderrOf, strAppend_assoc]
    | stderrData s =>
      rw [ih _ (fun x hx => hall x (List.mem_cons_of_mem _ hx)) (by simpa [execStep] using hs)
        (by simpa [execStep] using ht)]
      simp [execStep, stdoutOf, stderrOf, strAppend_assoc]
    | timeoutFired => exact absurd (hall _ (List.mem_cons_self _ _)) (by simp [isDataEvent])
    | closed code => exact absurd (hall _ (List.mem_cons_self _ _)) (by simp [isDataEvent])
    | procError m => exact absurd (hall _ (List.mem_cons_self _ _)) (by simp [isDataEvent])

/-- Claim C6: when the subprocess has produced only output events and
has not exited by the time the watchdog fires, the settled result
reports failure, carries the partial stdout captured so far as its
content, and embeds the first 200 characters of that partial stdout
in the error message. -/
theorem C6_timeout_result (timeoutMs : Nat) (pre rest : List ExecEvent)
    (h : ∀ e ∈ pre, isDataEvent e = true) :
    execSettled timeoutMs (pre ++ ExecEvent.timeoutFired :: rest) =
      some ⟨false, stdoutOf pre, some (timeoutError timeoutMs (stdoutOf pre))⟩ := by
  unfold execSettled execRun
  rw [List.foldl_append,
    execRun_data pre ⟨none, "", "", false⟩ h rfl rfl]
  rw [List.foldl_cons]
  have hstep : execStep timeoutMs ⟨none, "" ++ stdoutOf pre, "" ++ stderrOf pre, false⟩
      ExecEvent.timeoutFired =
      ⟨some ⟨false, stdoutOf pre, some (timeoutError timeoutMs (stdoutOf pre))⟩,
        stdoutOf pre, stderrOf pre, true⟩ := by
    simp [execStep, resolveOnce]
  rw [hstep]
  exact execRun_keeps_settled rest _ _ rfl

/-- Claim C6 (witness): the timeout theorem applied to a concrete
trace with buffered output and a late successful exit. -/
theorem C6_witness :
    (∀ e ∈ [ExecEvent.stdoutData "partial out"], isDataEvent e = true) ∧
    execSettled 60000
        ([ExecEvent.stdoutData "partial out"] ++
          ExecEvent.timeoutFired :: [ExecEvent.closed (some 0)]) =
      some ⟨false, stdoutOf [ExecEvent.stdoutData "partial out"],
        some (timeoutError 60000 (stdoutOf [ExecEvent.stdoutData "partial out"]))⟩ :=
  ⟨by decide,
    C6_timeout_result 60000 [ExecEvent.stdoutData "partial out"] [ExecEvent.closed (some 0)]
      (by decide)⟩

/-- Claim C10: the promise of `execute` settles at most once: once a
trace has settled the promise with some result, replaying any further
events, exits included, leaves the settled result unchanged. -/
theorem C10_settles_once (timeoutMs : Nat) (t u : List ExecEvent) (r : ClaudeResponse)
    (h : execSettled timeoutMs t = some r) :
    execSettled timeoutMs (t ++ u) = some r := by
  unfold execSettled execRun at h ⊢
  rw [List.foldl_append]
  exact execRun_keeps_settled u _ r h

/-- Claim C10 (witness): a timeout settles the promise with failure
and a later clean exit does not change the settled result. -/
theorem C10_witness :
    execSettled 300000 [ExecEvent.timeoutFired] =
      some ⟨false, "", some (timeoutError 300000 "")⟩ ∧
    execSettled 300000 ([ExecEvent.timeoutFired] ++ [ExecEvent.closed (some 0)]) =
      some ⟨false, "", some (timeoutError 300000 "")⟩ :=
  ⟨by decide,
    C10_settles_once 300000 [ExecEvent.timeoutFired] [ExecEvent.closed (some 0)] _ (by decide)⟩

/-! ## Claim C8 -/

/-- Claim C8: whenever the assistant reports failure, the updater
still produces content to write and an outcome with success true,
and the outcome method records the fallback with the failure
reason. -/
theorem C8_fallback_success (content agentName projectName : String)
    (files : List MarkdownFile) (response : ClaudeResponse)
    (h : response.success = false) :
    (updateAgentWithContextAI content agentName projectName files response).2.success = true ∧
    (updateAgentWithContextAI content agentName projectName files response).2.method =
      "fallback (AI failed: " ++ fallbackReason response ++ ")" := by
  unfold updateAgentWithContextAI
  rw [h]
  simp

/-- Claim C8 (witness): the fallback theorem applied to a concrete
failed response. -/
theorem C8_witness :
    (⟨false, "", some "spawn failed"⟩ : ClaudeResponse).success = false ∧
    (updateAgentWithContextAI "---\nname: a\n---\nbody text" "a" "proj" []
        ⟨false, "", some "spawn failed"⟩).2.success = true ∧
    (updateAgentWithContextAI "---\nname: a\n---\nbody text" "a" "proj" []
        ⟨false, "", some "spawn failed"⟩).2.method =
      "fallback (AI failed: " ++ fallbackReason ⟨false, "", some "spawn failed"⟩ ++ ")" :=
  ⟨by decide,
    (C8_fallback_success "---\nname: a\n---\nbody text" "a" "proj" []
      ⟨false, "", some "spawn failed"⟩ (by decide)).1,
    (C8_fallback_success "---\nname: a\n---\nbody text" "a" "proj" []
      ⟨false, "", some "spawn failed"⟩ (by decide)).2⟩

end CCAM
